import Mathlib

/-!
# Sia: Merkle segment proofs and host contract negotiation

A shallow embedding of `crypto/merkle.go` and `sia/host/contracts.go`.

Machine integers are natural numbers (or integers, for signed types) with the
wrap-around of the Go operators written out as `% 2 ^ 64`.  Go `error` values
are their messages; a run that ends in a runtime panic is `none`.
-/

namespace Sia

/-! ## Machine arithmetic -/

/-- The modulus of Go's `uint64`. -/
def word : Nat := 2 ^ 64

/-- Go `a + b` on `uint64`. -/
def add64 (a b : Nat) : Nat := (a + b) % word

/-- Go `a - b` on `uint64`: the difference wraps below zero. -/
def sub64 (a b : Nat) : Nat := (a + (word - b % word)) % word

/-- Go `a * b` on `uint64`. -/
def mul64 (a b : Nat) : Nat := (a * b) % word

/-- Go conversion `uint64(x)` of a signed integer. -/
def toUint64 (x : Int) : Nat := (x % (word : Int)).toNat

/-- Go conversion `int64(x)` of a `uint64`. -/
def toInt64 (x : Nat) : Int :=
  if x % word < 2 ^ 63 then ((x % word : Nat) : Int) else ((x % word : Nat) : Int) - (word : Int)

/-! ## crypto/merkle.go -/

/-- A byte. -/
abbrev Byte := Fin 256

/-- Constant `SegmentSize`: the number of bytes hashed to form each leaf. -/
def SegmentSize : Nat := 64

/-- Function `CalculateLeaves` of crypto/merkle.go, on `uint64`. -/
def CalculateLeaves (fileSize : Nat) : Nat :=
  let numSegments := fileSize / SegmentSize
  if fileSize = 0 ∨ fileSize % SegmentSize ≠ 0 then add64 numSegments 1 else numSegments

/-- A byte string (`[]byte`). -/
abbrev Bytes := List Byte

/-- The hash that `NewHash()` hands to the tree.  crypto/hash.go is not among
the sources, so the hash is a parameter: `size` is `HashSize`, `leafSum` the
hash of a leaf's bytes and `nodeSum` the hash of two sibling sums. -/
structure Hasher where
  size : Nat
  leafSum : Bytes → Bytes
  nodeSum : Bytes → Bytes → Bytes

/-- Every sum of the hasher is `HashSize` bytes long. -/
def Hasher.WellSized (hs : Hasher) : Prop :=
  (∀ d, (hs.leafSum d).length = hs.size) ∧ (∀ a b, (hs.nodeSum a b).length = hs.size)

/-- An `io.Reader`: it yields `data` and then ends, cleanly (`err = none`,
end of stream) or with a read error. -/
structure Reader where
  data : Bytes
  err : Option String

/-- The reader over a byte string (`bytes.NewReader`). -/
def Reader.ofBytes (data : Bytes) : Reader := { data := data, err := none }

namespace merkletree

/-- Modelled from the spec: package merkletree is imported by crypto/merkle.go
and is not among the sources.  One entry of the stack of
`(height, rootHash)` pairs of spec §4.1. -/
structure SubTree where
  height : Nat
  sum : Bytes

/-- Modelled from the spec: combining two equal-height subtree roots, left
then right, into a root one level higher (§4.1). -/
def joinSubTrees (hs : Hasher) (a b : SubTree) : SubTree :=
  { height := a.height + 1, sum := hs.nodeSum a.sum b.sum }

/-- Modelled from the spec: the incremental tree of §4.1 and the proof
builder of §4.2.  `head` is the stack, most recent (smallest) subtree first;
`proofSet` holds the target leaf's bytes followed by the sibling sums recorded
so far. -/
structure Tree where
  head : List SubTree
  currentIndex : Nat
  proofIndex : Nat
  proofSet : List Bytes

/-- Modelled from the spec: the empty tree. -/
def New : Tree := { head := [], currentIndex := 0, proofIndex := 0, proofSet := [] }

/-- Modelled from the spec: choosing the leaf for which a proof is built. -/
def Tree.SetIndex (t : Tree) (i : Nat) : Tree := { t with proofIndex := i }

/-- Modelled from the spec: the reduction of §4.1 run on a push.  While the
new subtree `cur` and the top of the stack have equal height they are popped
and joined; when the pair sits one level above the last recorded sibling, the
half that does not hold the proof index is recorded (§4.2). -/
def pushLoop (hs : Hasher) (proofIndex currentIndex : Nat) :
    SubTree → List SubTree → List Bytes → List SubTree × List Bytes
  | cur, [], ps => ([cur], ps)
  | cur, nxt :: rest, ps =>
    if cur.height = nxt.height then
      let ps1 :=
        if (cur.height : Int) = (ps.length : Int) - 1 then
          let leaves := 2 ^ cur.height
          let mid := (currentIndex / leaves) * leaves
          if proofIndex < mid then ps ++ [cur.sum] else ps ++ [nxt.sum]
        else ps
      pushLoop hs proofIndex currentIndex (joinSubTrees hs nxt cur) rest ps1
    else (cur :: nxt :: rest, ps)

/-- Modelled from the spec: `push(leafBytes)` appends one leaf (§4.1). -/
def Tree.Push (hs : Hasher) (t : Tree) (data : Bytes) : Tree :=
  let ps := if t.currentIndex = t.proofIndex then t.proofSet ++ [data] else t.proofSet
  let r := pushLoop hs t.proofIndex t.currentIndex
    { height := 0, sum := hs.leafSum data } t.head ps
  { head := r.1, currentIndex := t.currentIndex + 1, proofIndex := t.proofIndex,
    proofSet := r.2 }

/-- Modelled from the spec: `root()` continues the reduction as if no more
leaves arrive; each larger subtree is the left operand, so an unpaired
subtree is carried forward without being rehashed (§4.1).  The empty tree has
no root (`nil`). -/
def Tree.Root (hs : Hasher) (t : Tree) : Option Bytes :=
  match t.head with
  | [] => none
  | cur :: rest => some (rest.foldl (fun c nxt => joinSubTrees hs nxt c) cur).sum

/-- Modelled from the spec: the subtrees smaller than the one holding the
proof index are joined into a single right sibling (§4.2); `lvl` is
`len(proofSet) - 1`. -/
def collapse (hs : Hasher) (lvl : Int) : SubTree → List SubTree → SubTree × List SubTree
  | cur, [] => (cur, [])
  | cur, nxt :: rest =>
    if (nxt.height : Int) < lvl then collapse hs lvl (joinSubTrees hs nxt cur) rest
    else (cur, nxt :: rest)

/-- Modelled from the spec: completing the proof set (§4.2): the joined
smaller subtrees as one right sibling, then every larger subtree as a left
sibling.  Result: root, proof set, proof index, number of leaves. -/
def Tree.Prove (hs : Hasher) (t : Tree) : Option Bytes × List Bytes × Nat × Nat :=
  match t.head with
  | [] => (t.Root hs, [], t.proofIndex, t.currentIndex)
  | hd :: tl =>
    if t.proofSet.length = 0 then (t.Root hs, [], t.proofIndex, t.currentIndex)
    else
      let lvl : Int := (t.proofSet.length : Int) - 1
      let r := collapse hs lvl hd tl
      let proofSet :=
        match r.2 with
        | [] => t.proofSet
        | nxt :: rest =>
          if (nxt.height : Int) = lvl then
            (t.proofSet ++ [r.1.sum]) ++ rest.map SubTree.sum
          else t.proofSet ++ (nxt :: rest).map SubTree.sum
      (t.Root hs, proofSet, t.proofIndex, t.currentIndex)

/-- Modelled from the spec: the fixed-size chunks of a non-empty stream, the
last one possibly short (§4.1).  `fuel` bounds the number of reads. -/
def readChunks (segmentSize : Nat) : Nat → Bytes → List Bytes
  | 0, _ => []
  | fuel + 1, data =>
    if data = [] then []
    else data.take segmentSize :: readChunks segmentSize fuel (data.drop segmentSize)

/-- Modelled from the spec: the leaves `readSegments` pushes for a stream
that ends cleanly: one per chunk, and exactly one empty leaf for a stream of
zero bytes (§4.1). -/
def segments (segmentSize : Nat) (data : Bytes) : List Bytes :=
  if data = [] then [[]] else readChunks segmentSize data.length data

/-- Modelled from the spec: `readSegments(reader)` (§4.1): one push per
segment of a stream that ends cleanly; a read error other than a clean end
of stream is returned to the caller. -/
def Tree.ReadAll (hs : Hasher) (t : Tree) (r : Reader) (segmentSize : Nat) :
    Except String Tree :=
  match r.err with
  | none => .ok ((segments segmentSize r.data).foldl (Tree.Push hs) t)
  | some e => .error e

/-- Modelled from the spec: the root of the data of a reader (§4.1). -/
def ReaderRoot (r : Reader) (hs : Hasher) (segmentSize : Nat) : Except String (Option Bytes) :=
  match New.ReadAll hs r segmentSize with
  | .error e => .error e
  | .ok tree => .ok (tree.Root hs)

/-- Modelled from the spec: `buildProof(dataSource, proofIndex)` (§4.2).
Result: root, proof set, number of leaves. -/
def BuildReaderProof (r : Reader) (hs : Hasher) (segmentSize index : Nat) :
    Except String (Option Bytes × List Bytes × Nat) :=
  match (New.SetIndex index).ReadAll hs r segmentSize with
  | .error e => .error e
  | .ok tree =>
    let p := tree.Prove hs
    if p.2.1.length = 0 then .error "index was not reached while creating proof"
    else .ok (p.1, p.2.1, p.2.2.2)

/-- Modelled from the spec: the first phase of `verifyProof` (§4.2).  While
the subtree of `2 ^ height` leaves around the proof index is complete, the
next proof entry is the sibling on the side given by the proof index.  The
result is `none` when the proof set runs out, else the sum, the last index
of the largest complete subtree and the entries left. -/
def verifyComplete (hs : Hasher) (proofIndex numLeaves : Nat) :
    Nat → Nat → Bytes → List Bytes → Option (Bytes × Nat × List Bytes)
  | height, stableEnd, sum, rest =>
    let subTreeStartIndex := (proofIndex / 2 ^ height) * 2 ^ height
    let subTreeEndIndex := subTreeStartIndex + 2 ^ height - 1
    if subTreeEndIndex ≥ numLeaves then some (sum, stableEnd, rest)
    else
      match rest with
      | [] => none
      | x :: rest1 =>
        let sum1 :=
          if proofIndex - subTreeStartIndex < 2 ^ (height - 1) then hs.nodeSum sum x
          else hs.nodeSum x sum
        verifyComplete hs proofIndex numLeaves (height + 1) subTreeEndIndex sum1 rest1

/-- Modelled from the spec: `verifyProof(proof, claimedRoot)` (§4.2, §7):
the leaf sum of the base is combined with the proof entries in order, on the
side the proof index dictates, with the carry-forward rule for an incomplete
tree; malformed input gives `false`. -/
def VerifyProof (hs : Hasher) (merkleRoot : Option Bytes) (proofSet : List Bytes)
    (proofIndex numLeaves : Nat) : Bool :=
  match merkleRoot with
  | none => false
  | some root =>
    if proofIndex ≥ numLeaves then false
    else
      match proofSet with
      | [] => false
      | base :: rest =>
        match verifyComplete hs proofIndex numLeaves 1 proofIndex (hs.leafSum base) rest with
        | none => false
        | some (sum, stableEnd, rest1) =>
          let orphan : Option (Bytes × List Bytes) :=
            if stableEnd ≠ numLeaves - 1 then
              match rest1 with
              | [] => none
              | x :: rest2 => some (hs.nodeSum sum x, rest2)
            else some (sum, rest1)
          match orphan with
          | none => false
          | some (sum2, rest2) =>
            decide (rest2.foldl (fun s x => hs.nodeSum x s) sum2 = root)

end merkletree

/-- Go `copy(h[:], src)` into a zeroed `Hash`: the first `HashSize` bytes of
`src`, padded with zero bytes. -/
def copyHash (size : Nat) (src : Bytes) : Bytes :=
  src.take size ++ List.replicate (size - src.length) 0

/-- Method `(*MerkleTree).ReadSegments` of crypto/merkle.go. -/
def MerkleTree.ReadSegments (hs : Hasher) (t : merkletree.Tree) (r : Reader) :
    Except String merkletree.Tree :=
  t.ReadAll hs r SegmentSize

/-- Method `(*MerkleTree).Root` of crypto/merkle.go. -/
def MerkleTree.Root (hs : Hasher) (t : merkletree.Tree) : Bytes :=
  copyHash hs.size ((t.Root hs).getD [])

/-- Function `MerkleRoot` of crypto/merkle.go. -/
def MerkleRoot (hs : Hasher) (leaves : List Bytes) : Bytes :=
  MerkleTree.Root hs (leaves.foldl (merkletree.Tree.Push hs) merkletree.New)

/-- Function `ReaderMerkleRoot` of crypto/merkle.go. -/
def ReaderMerkleRoot (hs : Hasher) (r : Reader) : Except String Bytes :=
  match merkletree.ReaderRoot r hs SegmentSize with
  | .error e => .error e
  | .ok root => .ok (copyHash hs.size (root.getD []))

/-- Function `BuildReaderProof` of crypto/merkle.go.  The outer `none` is the
runtime panic of `proofSet[0]` on an empty proof set. -/
def BuildReaderProof (hs : Hasher) (r : Reader) (proofIndex : Nat) :
    Option (Except String (Bytes × List Bytes)) :=
  match merkletree.BuildReaderProof r hs SegmentSize proofIndex with
  | .error e => some (.error e)
  | .ok (_, proofSet, _) =>
    match proofSet with
    | [] => none
    | base :: proofs => some (.ok (base, proofs.map (copyHash hs.size)))

/-- Function `VerifySegment` of crypto/merkle.go. -/
def VerifySegment (hs : Hasher) (base : Bytes) (hashSet : List Bytes)
    (numSegments proofIndex : Nat) (root : Bytes) : Bool :=
  let proofSet := base :: hashSet
  merkletree.VerifyProof hs (some root) proofSet proofIndex numSegments

/-! ## sia/host/contracts.go -/

/-- Type `consensus.CoinAddress`; its declaration is not among the sources.
The zero value is `0`. -/
abbrev CoinAddress := Nat

/-- Type `consensus.ContractID`; its declaration is not among the sources. -/
abbrev ContractID := Nat

/-- Modelled from the spec: type `consensus.FileContract`, whose declaration
is not among the sources, with the fields of spec §3 under the names the
source uses.  `FileSize` is a `uint64` (the source converts it with
`consensus.Currency(fileSize)` and compares it with `uint64(...)`); heights
(`consensus.BlockHeight`) and amounts (`consensus.Currency`) take Go's
arithmetic operators in the source and are unsigned in the spec: they are
`uint64` values. -/
structure FileContract where
  ContractFund : Nat
  FileMerkleRoot : Bytes
  FileSize : Nat
  Start : Nat
  End : Nat
  ChallengeWindow : Nat
  Tolerance : Nat
  ValidProofPayout : Nat
  ValidProofAddress : CoinAddress
  MissedProofPayout : Nat
  MissedProofAddress : CoinAddress
  deriving DecidableEq

/-- Type `consensus.Transaction`: the file contracts, and `other` standing
for every other part (inputs, outputs, signatures). -/
structure Transaction where
  FileContracts : List FileContract
  other : Nat
  deriving DecidableEq

/-- Modelled from the spec: the host's announcement (`HostPolicy` of spec §3),
under the field names read by `considerContract`. -/
structure HostAnnouncement where
  MinFilesize : Nat
  MaxFilesize : Nat
  MinDuration : Nat
  MaxDuration : Nat
  MinChallengeWindow : Nat
  MaxChallengeWindow : Nat
  MinTolerance : Nat
  Price : Nat
  Burn : Nat
  CoinAddress : CoinAddress

/-- Type `ContractEntry` of sia/host/contracts.go. -/
structure ContractEntry where
  ID : ContractID
  Contract : FileContract

/-- The fields of the host that contracts.go reads and writes.
`spaceRemaining` is a signed counter (the source converts it with
`uint64(...)`), `Index` an `int` counter far below the limit of its type. -/
structure Host where
  height : Nat
  announcement : HostAnnouncement
  spaceRemaining : Int
  Files : Bytes → Option String
  Index : Int
  ForwardContracts : Nat → List ContractEntry

/-- The wallet collaborator: the results its three calls give. -/
structure Wallet where
  RegisterTransaction : Transaction → Except String String
  FundTransaction : String → Nat → Option String
  SignTransaction : String → Bool → Except String Transaction

/-- A call made on the wallet. -/
inductive WalletCall where
  | register (t : Transaction)
  | fund (id : String) (amount : Nat)
  | sign (id : String) (wholeTransaction : Bool)

/-- The checks of `considerContract` (lines 28 to 91): `none` is the runtime
panic of `t.FileContracts[0]` on an empty slice, `some (some e)` the
rejection `e`, `some none` a contract that passed every check. -/
def validate (h : Host) (t : Transaction) : Option (Option String) :=
  match t.FileContracts with
  | [] => none
  | c :: _ =>
    let contractDuration := sub64 c.End c.Start
    let fullDuration := sub64 c.End h.height
    let fileSize := c.FileSize
    if t.FileContracts.length ≠ 1 then
      some (some "transaction must have exactly one contract")
    else if fileSize < h.announcement.MinFilesize ∨ fileSize > h.announcement.MaxFilesize then
      some (some ("file is of incorrect size - filesize " ++ toString fileSize ++ ", min "
        ++ toString h.announcement.MinFilesize ++ ", max "
        ++ toString h.announcement.MaxFilesize))
    else if fileSize > toUint64 h.spaceRemaining then
      some (some "host is at capacity and can not take more files.")
    else if fullDuration < h.announcement.MinDuration
        ∨ fullDuration > h.announcement.MaxDuration then
      some (some "contract duration is out of bounds")
    else if c.ChallengeWindow < h.announcement.MinChallengeWindow
        ∨ c.ChallengeWindow > h.announcement.MaxChallengeWindow then
      some (some "challenges frequency is too often")
    else if c.Tolerance < h.announcement.MinTolerance then
      some (some "tolerance is too low")
    else if c.ValidProofAddress ≠ h.announcement.CoinAddress then
      some (some "coins are not paying out to correct address")
    else if c.ValidProofPayout
        < mul64 (mul64 h.announcement.Price fileSize) c.ChallengeWindow then
      some (some "valid proof payout is too low")
    else if c.MissedProofAddress ≠ 0 then
      some (some "burn payout needs to go to the empty address")
    else if c.MissedProofPayout
        > mul64 (mul64 h.announcement.Burn fileSize) c.ChallengeWindow then
      some (some "burn payout is too high for a missed proof.")
    else if c.ContractFund
        < mul64 (mul64 (add64 h.announcement.Burn h.announcement.Price) fileSize)
            contractDuration then
      some (some "ContractFund does not cover the entire duration of the contract.")
    else some none

/-- What a call of `considerContract` leaves behind: the returned pair
`(updatedTransaction, err)`, the calls made on the wallet, in order, and the
host after the call. -/
structure Considered where
  ret : Except String Transaction
  calls : List WalletCall
  host : Host

/-- Method `(*Host).considerContract` of sia/host/contracts.go: the checks,
then (lines 93 to 107) the funding of the penalty and the signature.  `none`
is a runtime panic. -/
def considerContract (w : Wallet) (h : Host) (t : Transaction) : Option Considered :=
  match validate h t with
  | none => none
  | some (some e) => some { ret := .error e, calls := [], host := h }
  | some none =>
    match t.FileContracts with
    | [] => none
    | c :: _ =>
      let contractDuration := sub64 c.End c.Start
      let penalty := mul64 (mul64 h.announcement.Burn c.FileSize) contractDuration
      match w.RegisterTransaction t with
      | .error e => some { ret := .error e, calls := [.register t], host := h }
      | .ok id =>
        match w.FundTransaction id penalty with
        | some e =>
          some { ret := .error e, calls := [.register t, .fund id penalty], host := h }
        | none =>
          some { ret := w.SignTransaction id true,
                 calls := [.register t, .fund id penalty, .sign id true], host := h }

/-- Each collaborator of `NegotiateContract` and each constant it uses whose
declaration is not among the sources: the wallet, the connection (the
transaction `encoding.ReadObject` decodes, the bytes the peer delivers after
it with the error that ends them, the result of a write), the file system
(`os.Create`, `Seek`), the hash package of the caller
(`hash.ReaderMerkleRoot`, `hash.CalculateSegments`), the chain height, the
transaction pool and the contract identifier. -/
structure Env where
  wallet : Wallet
  readObject : Except String Transaction
  delivered : Bytes
  connErr : Option String
  writeObject : String → Option String
  AcceptContractResponse : String
  hostDir : String
  createErr : Option String
  seekErr : Option String
  ReaderMerkleRoot : Bytes → Nat → Except String Bytes
  CalculateSegments : Nat → Nat
  Height : Nat
  AcceptTransaction : Transaction → Option String
  FileContractID : Transaction → Nat → ContractID
  StorageProofReorgDepth : Nat

/-- The state a negotiation acts on: the host, the files on disk, the
transactions handed to the transaction pool, the objects written to the
peer and the calls made on the wallet. -/
structure World where
  host : Host
  fs : String → Option Bytes
  submitted : List Transaction
  written : List String
  walletCalls : List WalletCall

/-- Go `io.CopyN(dst, src, n)` from a stream that delivers `delivered` and
then ends with `connErr` (`none`: end of stream): the bytes written and the
error.  With `n ≤ 0` nothing is copied and no error is returned. -/
def copyN (delivered : Bytes) (connErr : Option String) (n : Int) : Bytes × Option String :=
  if n ≤ (delivered.length : Int) then (delivered.take n.toNat, none)
  else (delivered, some (connErr.getD "EOF"))

/-- The deferred clean-up of `NegotiateContract`: when the function returns
an error the file is removed. -/
def finish (filename : String) (err : Option String) (s : World) : Option String × World :=
  match err with
  | none => (none, s)
  | some e => (some e, { s with fs := Function.update s.fs filename none })

/-- Method `NegotiateContract` of sia/host/contracts.go.  The result is the
returned error (`none` for `nil`) and the state after the call; the outer
`none` is a runtime panic. -/
def NegotiateContract (env : Env) (s : World) : Option (Option String × World) :=
  match env.readObject with
  | .error e => some (some e, s)
  | .ok t0 =>
    match considerContract env.wallet s.host t0 with
    | none => none
    | some r =>
      let s1 : World := { s with host := r.host, walletCalls := s.walletCalls ++ r.calls }
      match r.ret with
      | .error e =>
        some (env.writeObject e, { s1 with written := s1.written ++ [e] })
      | .ok t =>
        let s2 : World := { s1 with written := s1.written ++ [env.AcceptContractResponse] }
        match env.writeObject env.AcceptContractResponse with
        | some e => some (some e, s2)
        | none =>
          let filename := env.hostDir ++ toString s2.host.Index
          match env.createErr with
          | some e => some (some e, s2)
          | none =>
            let s3 : World := { s2 with fs := Function.update s2.fs filename (some []) }
            match t.FileContracts with
            | [] => none
            | c :: _ =>
              let copied := copyN env.delivered env.connErr (toInt64 c.FileSize)
              let s4 : World := { s3 with fs := Function.update s3.fs filename (some copied.1) }
              match copied.2 with
              | some e => some (finish filename (some e) s4)
              | none =>
                match env.seekErr with
                | some e => some (finish filename (some e) s4)
                | none =>
                  match env.ReaderMerkleRoot copied.1 (env.CalculateSegments c.FileSize) with
                  | .error e => some (finish filename (some e) s4)
                  | .ok merkleRoot =>
                    if merkleRoot ≠ c.FileMerkleRoot then
                      some (finish filename (some "uploaded file has wrong merkle root") s4)
                    else if env.Height ≥ sub64 c.Start 2 then
                      some (finish filename
                        (some "file not uploaded in time, refusing to go forward with contract")
                        s4)
                    else
                      let host5 : Host :=
                        { s4.host with
                          Files := Function.update s4.host.Files c.FileMerkleRoot
                            (some (toString s4.host.Index))
                          Index := s4.host.Index + 1 }
                      let s5 : World :=
                        { s4 with host := host5, submitted := s4.submitted ++ [t] }
                      match env.AcceptTransaction t with
                      | some e => some (finish filename (some e) s5)
                      | none =>
                        let firstProof := add64 c.Start env.StorageProofReorgDepth
                        let entry : ContractEntry :=
                          { ID := env.FileContractID t 0, Contract := c }
                        let host6 : Host :=
                          { s5.host with
                            ForwardContracts := Function.update s5.host.ForwardContracts
                              firstProof (s5.host.ForwardContracts firstProof ++ [entry]) }
                        some (finish filename none { s5 with host := host6 })

/-! ## Validation: passing conditions and the reference validator -/

/-- The conditions under which every check of `validate` passes. -/
structure Passes (h : Host) (c : FileContract) : Prop where
  minSize : h.announcement.MinFilesize ≤ c.FileSize
  maxSize : c.FileSize ≤ h.announcement.MaxFilesize
  space : c.FileSize ≤ toUint64 h.spaceRemaining
  minDur : h.announcement.MinDuration ≤ sub64 c.End h.height
  maxDur : sub64 c.End h.height ≤ h.announcement.MaxDuration
  minWin : h.announcement.MinChallengeWindow ≤ c.ChallengeWindow
  maxWin : c.ChallengeWindow ≤ h.announcement.MaxChallengeWindow
  tol : h.announcement.MinTolerance ≤ c.Tolerance
  validAddr : c.ValidProofAddress = h.announcement.CoinAddress
  validPay : mul64 (mul64 h.announcement.Price c.FileSize) c.ChallengeWindow ≤ c.ValidProofPayout
  missedAddr : c.MissedProofAddress = 0
  missedPay : c.MissedProofPayout ≤ mul64 (mul64 h.announcement.Burn c.FileSize) c.ChallengeWindow
  fund : mul64 (mul64 (add64 h.announcement.Burn h.announcement.Price) c.FileSize)
      (sub64 c.End c.Start) ≤ c.ContractFund

/-- The checks of spec §4.3 in the order the spec lists them, each as the spec
words it, in exact arithmetic on unbounded integers, with the rejection
`considerContract` gives for it.  `true` means the check passes. -/
def specChecks (h : Host) (t : Transaction) (c : FileContract) : List (Bool × String) :=
  [ (decide (t.FileContracts.length = 1), "transaction must have exactly one contract"),
    (decide (h.announcement.MinFilesize ≤ c.FileSize ∧ c.FileSize ≤ h.announcement.MaxFilesize),
      "file is of incorrect size - filesize " ++ toString c.FileSize ++ ", min "
        ++ toString h.announcement.MinFilesize ++ ", max "
        ++ toString h.announcement.MaxFilesize),
    (decide ((c.FileSize : Int) ≤ h.spaceRemaining),
      "host is at capacity and can not take more files."),
    (decide ((h.announcement.MinDuration : Int) ≤ (c.End : Int) - (h.height : Int)
        ∧ (c.End : Int) - (h.height : Int) ≤ (h.announcement.MaxDuration : Int)),
      "contract duration is out of bounds"),
    (decide (h.announcement.MinChallengeWindow ≤ c.ChallengeWindow
        ∧ c.ChallengeWindow ≤ h.announcement.MaxChallengeWindow),
      "challenges frequency is too often"),
    (decide (c.Tolerance ≥ h.announcement.MinTolerance), "tolerance is too low"),
    (decide (c.ValidProofAddress = h.announcement.CoinAddress),
      "coins are not paying out to correct address"),
    (decide (c.ValidProofPayout ≥ h.announcement.Price * c.FileSize * c.ChallengeWindow),
      "valid proof payout is too low"),
    (decide (c.MissedProofAddress = 0), "burn payout needs to go to the empty address"),
    (decide (c.MissedProofPayout ≤ h.announcement.Burn * c.FileSize * c.ChallengeWindow),
      "burn payout is too high for a missed proof."),
    (decide ((c.ContractFund : Int) ≥ ((h.announcement.Burn : Int) + (h.announcement.Price : Int))
        * (c.FileSize : Int) * ((c.End : Int) - (c.Start : Int))),
      "ContractFund does not cover the entire duration of the contract.") ]

/-- The rejection of the first check that fails, `none` when all pass. -/
def firstFailure : List (Bool × String) → Option String
  | [] => none
  | (ok, err) :: rest => if ok then firstFailure rest else some err

/-- The reference validator of spec §4.3: the checks evaluated in the listed
order. -/
def referenceValidator (h : Host) (t : Transaction) (c : FileContract) : Option String :=
  firstFailure (specChecks h t c)

/-- A host whose price makes the payout products exceed 64 bits. -/
def wrapHost : Host :=
  { height := 0
    announcement :=
      { MinFilesize := 1, MaxFilesize := 2 ^ 32, MinDuration := 10, MaxDuration := 1000,
        MinChallengeWindow := 1, MaxChallengeWindow := 100, MinTolerance := 0,
        Price := 2 ^ 32, Burn := 0, CoinAddress := 7 }
    spaceRemaining := 2 ^ 32
    Files := fun _ => none
    Index := 0
    ForwardContracts := fun _ => [] }

/-- A contract for `wrapHost` that pays nothing. -/
def wrapContract : FileContract :=
  { ContractFund := 0, FileMerkleRoot := [], FileSize := 2 ^ 32, Start := 5, End := 100,
    ChallengeWindow := 1, Tolerance := 0, ValidProofPayout := 0, ValidProofAddress := 7,
    MissedProofPayout := 0, MissedProofAddress := 0 }

/-- The transaction holding `wrapContract`. -/
def wrapTx : Transaction := { FileContracts := [wrapContract], other := 0 }

/-- No difference or product computed by the checks leaves the unsigned
64-bit range, and the capacity counter is not negative. -/
structure NoWrap (h : Host) (c : FileContract) : Prop where
  endWord : c.End < 2 ^ 64
  heightLe : h.height ≤ c.End
  startLe : c.Start ≤ c.End
  spaceNonneg : 0 ≤ h.spaceRemaining
  spaceWord : h.spaceRemaining < 2 ^ 64
  validProduct : h.announcement.Price * c.FileSize * c.ChallengeWindow < 2 ^ 64
  missedProduct : h.announcement.Burn * c.FileSize * c.ChallengeWindow < 2 ^ 64
  fundProduct :
    (h.announcement.Burn + h.announcement.Price) * c.FileSize * (c.End - c.Start) < 2 ^ 64

/-- A host at height 5 whose policy accepts any duration. -/
def lateHost : Host :=
  { height := 5
    announcement :=
      { MinFilesize := 1, MaxFilesize := 1000000, MinDuration := 0, MaxDuration := 2 ^ 64 - 1,
        MinChallengeWindow := 1, MaxChallengeWindow := 100, MinTolerance := 0,
        Price := 1, Burn := 1, CoinAddress := 7 }
    spaceRemaining := 1000000
    Files := fun _ => none
    Index := 0
    ForwardContracts := fun _ => [] }

/-- A contract that ended at height 0. -/
def lateContract : FileContract :=
  { ContractFund := 0, FileMerkleRoot := [], FileSize := 1, Start := 0, End := 0,
    ChallengeWindow := 1, Tolerance := 0, ValidProofPayout := 1, ValidProofAddress := 7,
    MissedProofPayout := 0, MissedProofAddress := 0 }

/-- The transaction holding `lateContract`. -/
def lateTx : Transaction := { FileContracts := [lateContract], other := 0 }

/-- The host of the end-to-end scenario of spec §8, at height 0. -/
def scenarioHost : Host :=
  { height := 0
    announcement :=
      { MinFilesize := 1, MaxFilesize := 1000000, MinDuration := 10, MaxDuration := 1000,
        MinChallengeWindow := 1, MaxChallengeWindow := 100, MinTolerance := 0,
        Price := 1, Burn := 1, CoinAddress := 7 }
    spaceRemaining := 1000000
    Files := fun _ => none
    Index := 0
    ForwardContracts := fun _ => [] }

/-- The contract of the end-to-end scenario of spec §8. -/
def scenarioContract : FileContract :=
  { ContractFund := (1 + 1) * 1024 * 95, FileMerkleRoot := [], FileSize := 1024, Start := 5,
    End := 100, ChallengeWindow := 1, Tolerance := 0, ValidProofPayout := 1024,
    ValidProofAddress := 7, MissedProofPayout := 0, MissedProofAddress := 0 }

/-- The transaction of the end-to-end scenario. -/
def scenarioTx : Transaction := { FileContracts := [scenarioContract], other := 0 }

/-- A wallet that registers, funds and signs without error and returns the
transaction with its contracts unchanged. -/
def scenarioWallet : Wallet :=
  { RegisterTransaction := fun _ => .ok "id"
    FundTransaction := fun _ _ => none
    SignTransaction := fun _ _ => .ok { FileContracts := [scenarioContract], other := 1 } }

/-- The scenario contract with its file size lowered to 0, below the minimum
file size 1 of `scenarioHost`. -/
def smallContract : FileContract := { scenarioContract with FileSize := 0 }

/-- The transaction holding `smallContract`. -/
def smallTx : Transaction := { FileContracts := [smallContract], other := 0 }

/-- The collaborators of the end-to-end scenario: the peer sends
`scenarioTx` and then 1024 zero bytes, every collaborator succeeds, and the
chain is at height 0. -/
def scenarioEnv : Env :=
  { wallet := scenarioWallet
    readObject := .ok scenarioTx
    delivered := List.replicate 1024 0
    connErr := none
    writeObject := fun _ => none
    AcceptContractResponse := "accept"
    hostDir := "host/"
    createErr := none
    seekErr := none
    ReaderMerkleRoot := fun _ _ => .ok []
    CalculateSegments := CalculateLeaves
    Height := 0
    AcceptTransaction := fun _ => none
    FileContractID := fun _ _ => 0
    StorageProofReorgDepth := 6 }

/-- The state before the end-to-end scenario: `scenarioHost`, nothing on disk,
nothing submitted, written or asked of the wallet. -/
def scenarioWorld : World :=
  { host := scenarioHost, fs := fun _ => none, submitted := [], written := [],
    walletCalls := [] }

/-- The scenario with the peer sending `smallTx` instead. -/
def smallEnv : Env := { scenarioEnv with readObject := .ok smallTx }

/-- The scenario with the peer delivering 10 of the 1024 bytes. -/
def shortEnv : Env := { scenarioEnv with delivered := List.replicate 10 0 }

/-! ## Invariants of the incremental tree -/

namespace merkletree

/-- The number of leaves under a stack of complete subtrees. -/
def leafCount : List SubTree → Nat
  | [] => 0
  | s :: rest => 2 ^ s.height + leafCount rest

/-- The heights of a stack are at least `lo` and increase strictly from the
head. -/
def Ascending : Nat → List SubTree → Prop
  | _, [] => True
  | lo, s :: rest => lo ≤ s.height ∧ Ascending (s.height + 1) rest

/-- Each sum held by the stack is `HashSize` bytes long. -/
def SizedStack (hs : Hasher) (st : List SubTree) : Prop :=
  ∀ s ∈ st, s.sum.length = hs.size

/-- Each entry of a proof set after the base is `HashSize` bytes long. -/
def SizedProof (hs : Hasher) (ps : List Bytes) : Prop :=
  ∀ x ∈ ps.tail, x.length = hs.size

/-- The sum reached from `sum` at level `k` by combining with the siblings
in order, on the side given by the bits of the index `i`. -/
def climb (hs : Hasher) (i : Nat) : Nat → Bytes → List Bytes → Bytes
  | _, sum, [] => sum
  | k, sum, x :: rest =>
    climb hs i (k + 1) (if i / 2 ^ k % 2 = 0 then hs.nodeSum sum x else hs.nodeSum x sum) rest

/-- The subtree `S` holds leaf `i`: it sits above `below` leaves, its height
is the number of siblings recorded and its sum is the climb from the base
through them. -/
structure Holds (hs : Hasher) (i : Nat) (S : SubTree) (below : Nat) (base : Bytes)
    (sibs : List Bytes) : Prop where
  height : S.height = sibs.length
  sum : S.sum = climb hs i 0 (hs.leafSum base) sibs
  lower : below ≤ i
  upper : i < below + 2 ^ S.height

/-- The proof set `ps` tracks leaf `i` in the stack `st`: the stack splits
into smaller subtrees, the subtree that holds `i`, and larger subtrees. -/
def Tracking (hs : Hasher) (i : Nat) (st : List SubTree) (ps : List Bytes) : Prop :=
  ∃ base sibs smaller S larger,
    ps = base :: sibs ∧ st = smaller ++ S :: larger
      ∧ (∀ s ∈ smaller, s.height < S.height)
      ∧ Holds hs i S (leafCount larger) base sibs

/-- The invariant of a tree after `n` pushes, for proof index `i`. -/
structure Inv (hs : Hasher) (i n : Nat) (t : Tree) : Prop where
  current : t.currentIndex = n
  index : t.proofIndex = i
  ascending : Ascending 0 t.head
  count : leafCount t.head = n
  sizedStack : SizedStack hs t.head
  sizedProof : SizedProof hs t.proofSet
  before : n ≤ i → t.proofSet = []
  after : i < n → Tracking hs i t.head t.proofSet

end merkletree

/-- A hasher with two-byte sums for concrete runs: a tag byte followed by a
byte folded from the input. -/
def tagHasher : Hasher :=
  { size := 2
    leafSum := fun d => [0, d.foldl (fun a b => a + b) 1]
    nodeSum := fun a b => [1, (a ++ b).foldl (fun x y => 3 * x + y) 0] }

/-- A file of 130 bytes, three segments long. -/
def sampleData : Bytes := List.replicate 64 1 ++ (List.replicate 64 2 ++ [3, 4])

/-! ## Negotiations that reach the deadline check -/

/-- The negotiation reaches the deadline check of `NegotiateContract` (line
166): the transaction is read, `considerContract` returns `r` with the signed
transaction `t`, the acceptance is written, the destination is created, the
peer delivers the `filesize` bytes of the first contract `c` of `t`, and
their recomputed Merkle root is the one of the contract. -/
structure Verified (env : Env) (s : World) (r : Considered) (t : Transaction)
    (c : FileContract) : Prop where
  considered : ∃ t0, env.readObject = .ok t0 ∧ considerContract env.wallet s.host t0 = some r
  signed : r.ret = .ok t
  accepted : env.writeObject env.AcceptContractResponse = none
  created : env.createErr = none
  contract : ∃ rest, t.FileContracts = c :: rest
  size : c.FileSize < 2 ^ 63
  delivered : c.FileSize ≤ env.delivered.length
  seek : env.seekErr = none
  root : env.ReaderMerkleRoot (env.delivered.take c.FileSize)
      (env.CalculateSegments c.FileSize) = .ok c.FileMerkleRoot

/-- The name of the destination file of a negotiation. -/
def destination (env : Env) (s : World) : String := env.hostDir ++ toString s.host.Index

/-- The state of a negotiation at the deadline check: the wallet has been
called, the acceptance written and the delivered bytes stored. -/
def verifiedWorld (env : Env) (s : World) (r : Considered) (c : FileContract) : World :=
  { host := s.host
    fs := Function.update (Function.update s.fs (destination env s) (some []))
      (destination env s) (some (env.delivered.take c.FileSize))
    submitted := s.submitted
    written := s.written ++ [env.AcceptContractResponse]
    walletCalls := s.walletCalls ++ r.calls }

/-- The host after lines 172 to 175: the file recorded under the Merkle root
of the contract and the index advanced. -/
def recordFile (h : Host) (c : FileContract) : Host :=
  { h with
    Files := Function.update h.Files c.FileMerkleRoot (some (toString h.Index))
    Index := h.Index + 1 }

/-- The host after line 186: the contract entry appended to the proofs due at
`start + StorageProofReorgDepth`. -/
def scheduleProof (env : Env) (h : Host) (t : Transaction) (c : FileContract) : Host :=
  { h with
    ForwardContracts := Function.update h.ForwardContracts
      (add64 c.Start env.StorageProofReorgDepth)
      (h.ForwardContracts (add64 c.Start env.StorageProofReorgDepth)
        ++ [{ ID := env.FileContractID t 0, Contract := c }]) }

/-- The scenario of spec §8 with the transaction pool rejecting the signed
transaction. -/
def rejectEnv : Env := { scenarioEnv with AcceptTransaction := fun _ => some "rejected" }

/-- The scenario contract with its start moved to height 1 and the fund
raised for the 99 blocks. -/
def earlyContract : FileContract :=
  { scenarioContract with Start := 1, ContractFund := (1 + 1) * 1024 * 99 }

/-- The transaction holding `earlyContract`. -/
def earlyTx : Transaction := { FileContracts := [earlyContract], other := 0 }

/-- The scenario of spec §8 for `earlyContract`, at chain height 0. -/
def earlyEnv : Env :=
  { scenarioEnv with
    readObject := .ok earlyTx
    wallet :=
      { scenarioWallet with
        SignTransaction := fun _ _ => .ok { FileContracts := [earlyContract], other := 1 } } }

/-- The scenario of spec §8 with a wallet that refuses to fund the penalty
with the error `e`. -/
def brokeEnv (e : String) : Env :=
  { scenarioEnv with wallet := { scenarioWallet with FundTransaction := fun _ _ => some e } }

/-- What `considerContract` returns in the scenario of spec §8. -/
def scenarioConsidered : Considered :=
  { ret := .ok { FileContracts := [scenarioContract], other := 1 }
    calls := [.register scenarioTx, .fund "id" 97280, .sign "id" true]
    host := scenarioHost }

/-- The scenario of spec §8 at chain height `height`, with the transaction
pool answering `accept`. -/
def scenarioAt (height : Nat) (accept : Option String) : Env :=
  { scenarioEnv with Height := height, AcceptTransaction := fun _ => accept }

/-- A host whose burn makes the penalty product exceed 64 bits. -/
def burnHost : Host :=
  { wrapHost with
    announcement := { wrapHost.announcement with Price := 0, Burn := 2 ^ 32 } }

/-- The conversion of `BuildReaderProof` (lines 105 to 110): the base is
`proofSet[0]` and entry `i` of the hash set is `proofSet[i+1]` copied into a
`Hash`.  `none` is the runtime panic of `proofSet[0]` on an empty set. -/
def hashSetOfProofSet (size : Nat) : List Bytes → Option (Bytes × List Bytes)
  | [] => none
  | base :: proofs => some (base, proofs.map (copyHash size))

/-- The conversion of `VerifySegment` (lines 117 to 122): `proofSet[0]` is the
base and `proofSet[i+1]` is entry `i` of the hash set. -/
def proofSetOfHashSet (base : Bytes) (hashSet : List Bytes) : List Bytes :=
  base :: hashSet

/-! ## Hash collisions met while a root is computed -/

namespace merkletree

/-- The stack after one more leaf is pushed. -/
def stackAfter (hs : Hasher) (st : List SubTree) (leaf : Bytes) : List SubTree :=
  (pushLoop hs 0 0 { height := 0, sum := hs.leafSum leaf } st []).1

/-- The pairs of sums a push hashes into nodes. -/
def pushJoins (hs : Hasher) : SubTree → List SubTree → List (Bytes × Bytes)
  | _, [] => []
  | cur, nxt :: rest =>
    if cur.height = nxt.height then
      (nxt.sum, cur.sum) :: pushJoins hs (joinSubTrees hs nxt cur) rest
    else []

/-- The pairs of sums `Root` hashes into nodes. -/
def rootJoins (hs : Hasher) : SubTree → List SubTree → List (Bytes × Bytes)
  | _, [] => []
  | cur, nxt :: rest => (nxt.sum, cur.sum) :: rootJoins hs (joinSubTrees hs nxt cur) rest

/-- Every pair of sums hashed into a node while the leaves are pushed on the
stack `st` and the root is taken. -/
def nodeInputs (hs : Hasher) : List SubTree → List Bytes → List (Bytes × Bytes)
  | [], [] => []
  | cur :: rest, [] => rootJoins hs cur rest
  | st, leaf :: leaves =>
    pushJoins hs { height := 0, sum := hs.leafSum leaf } st
      ++ nodeInputs hs (stackAfter hs st leaf) leaves

/-- Two different pairs, one from each list, have the same node hash. -/
def NodeCollision (hs : Hasher) (ps qs : List (Bytes × Bytes)) : Prop :=
  ∃ p ∈ ps, ∃ q ∈ qs, p ≠ q ∧ hs.nodeSum p.1 p.2 = hs.nodeSum q.1 q.2

/-- Two different leaves, one from each list, have the same leaf hash. -/
def LeafCollision (hs : Hasher) (l1 l2 : List Bytes) : Prop :=
  ∃ a ∈ l1, ∃ b ∈ l2, a ≠ b ∧ hs.leafSum a = hs.leafSum b

/-- The root of a stack: `Root` on a tree with this stack. -/
def rootOf (hs : Hasher) : List SubTree → Option Bytes
  | [] => none
  | cur :: rest => some (rest.foldl (fun c nxt => joinSubTrees hs nxt c) cur).sum

end merkletree

/-- The computations of the Merkle roots of two leaf lists meet a hash
collision: two different leaves with one leaf hash, or two different pairs
of sums with one node hash. -/
def Collides (hs : Hasher) (l1 l2 : List Bytes) : Prop :=
  merkletree.LeafCollision hs l1 l2
    ∨ merkletree.NodeCollision hs (merkletree.nodeInputs hs [] l1)
        (merkletree.nodeInputs hs [] l2)

/-- A contract for a file of `2 ^ 63` bytes, a size that `int64` cannot
hold, paying nothing. -/
def hugeContract : FileContract :=
  { scenarioContract with
    FileSize := 2 ^ 63, ContractFund := 0, ValidProofPayout := 0, MissedProofPayout := 0 }

/-- The transaction holding `hugeContract`. -/
def hugeTx : Transaction := { FileContracts := [hugeContract], other := 0 }

/-- A host that stores for free, accepts files of up to `2 ^ 63` bytes and
whose capacity counter is -1, which `uint64(...)` turns into `2 ^ 64 - 1`. -/
def hugeHost : Host :=
  { scenarioHost with
    announcement :=
      { scenarioHost.announcement with MaxFilesize := 2 ^ 63, Price := 0, Burn := 0 }
    spaceRemaining := -1 }

/-- The scenario of spec §8 for `hugeContract`, with the peer delivering 16
bytes. -/
def hugeEnv : Env :=
  { scenarioEnv with
    readObject := .ok hugeTx
    delivered := List.replicate 16 0
    wallet :=
      { scenarioWallet with
        SignTransaction := fun _ _ => .ok { FileContracts := [hugeContract], other := 1 } } }

/-- The state before the negotiation of `hugeContract`. -/
def hugeWorld : World := { scenarioWorld with host := hugeHost }

/-! # Theorems -/

/-! ## CalculateLeaves -/

/-- The ceiling of `n / SegmentSize` by quotient and remainder. -/
theorem ceil_div_segment (n : Nat) :
    ⌈(n : ℚ) / (SegmentSize : ℚ)⌉₊ = if n % SegmentSize = 0 then n / SegmentSize else n / SegmentSize + 1 := by
  have hn : n = SegmentSize * (n / SegmentSize) + n % SegmentSize := (Nat.div_add_mod n SegmentSize).symm
  have hr : n % SegmentSize < SegmentSize := Nat.mod_lt _ (by decide)
  generalize n / SegmentSize = q at *
  generalize n % SegmentSize = r at *
  have hq : (n : ℚ) = 64 * q + r := by rw [hn]; simp [SegmentSize]
  have h64 : (SegmentSize : ℚ) = 64 := by norm_num [SegmentSize]
  have hr' : (r : ℚ) < 64 := by
    have : r < 64 := hr
    exact_mod_cast this
  rw [hq, h64]
  split
  · next h0 =>
    subst h0
    apply le_antisymm
    · rw [Nat.ceil_le]; simp
    · rcases q with _ | q
      · simp
      · rw [Nat.succ_le, Nat.lt_ceil]
        push_cast
        rw [lt_div_iff₀ (by norm_num)]
        linarith
  · next h0 =>
    have hr0 : (1 : ℚ) ≤ r := by
      have : 1 ≤ r := Nat.one_le_iff_ne_zero.mpr h0
      exact_mod_cast this
    apply le_antisymm
    · rw [Nat.ceil_le, div_le_iff₀ (by norm_num)]
      push_cast
      linarith
    · rw [Nat.succ_le, Nat.lt_ceil, lt_div_iff₀ (by norm_num)]
      linarith

/-- C3: on every 64-bit file size `CalculateLeaves` is the exact ceiling of
`fileSize / SegmentSize`, except that size 0 gives one leaf; sizes 0, 64 and
65 give 1, 1 and 2 leaves. -/
theorem CalculateLeaves_eq_ceil (fileSize : Nat) (h : fileSize < 2 ^ 64) :
    CalculateLeaves fileSize
        = (if fileSize = 0 then 1 else ⌈(fileSize : ℚ) / (SegmentSize : ℚ)⌉₊)
      ∧ CalculateLeaves 0 = 1 ∧ CalculateLeaves SegmentSize = 1
      ∧ CalculateLeaves (SegmentSize + 1) = 2 := by
  refine ⟨?_, by decide, by decide, by decide⟩
  rw [ceil_div_segment]
  unfold CalculateLeaves add64 word
  simp only [SegmentSize] at *
  have h1 : (fileSize / 64 + 1) % 2 ^ 64 = fileSize / 64 + 1 := by
    apply Nat.mod_eq_of_lt
    omega
  rw [h1]
  by_cases h0 : fileSize = 0
  · subst h0; simp
  · by_cases hm : fileSize % 64 = 0
    · simp [h0, hm]
    · simp [h0, hm]

/-- Witness of C3 at file size 65. -/
theorem CalculateLeaves_eq_ceil_witness :
    (65 : Nat) < 2 ^ 64 ∧
    (CalculateLeaves 65 = (if (65 : Nat) = 0 then 1 else ⌈((65 : Nat) : ℚ) / (SegmentSize : ℚ)⌉₊)
      ∧ CalculateLeaves 0 = 1 ∧ CalculateLeaves SegmentSize = 1
      ∧ CalculateLeaves (SegmentSize + 1) = 2) :=
  ⟨by decide, CalculateLeaves_eq_ceil 65 (by decide)⟩

/-! ## Validation -/

/-- A rejecting branch yields a pass only when its condition is false. -/
theorem reject_else_eq_pass (p : Prop) [Decidable p] (e : String) (x : Option (Option String)) :
    (if p then some (some e) else x) = some none ↔ ¬ p ∧ x = some none := by
  by_cases hp : p
  · simp [hp]
  · simp [hp]

/-- The checks pass exactly on one contract that meets every bound. -/
theorem validate_pass_iff (h : Host) (t : Transaction) :
    validate h t = some none ↔ ∃ c, t.FileContracts = [c] ∧ Passes h c := by
  unfold validate
  rcases hc : t.FileContracts with _ | ⟨c, rest⟩
  · simp
  · simp only [reject_else_eq_pass]
    constructor
    · rintro ⟨h1, h2, h3, h4, h5, h6, h7, h8, h9, h10, h11, -⟩
      have hr : rest = [] := by
        simpa using h1
      subst hr
      refine ⟨c, rfl, ?_⟩
      constructor <;> first | omega | exact not_not.mp h7 | exact not_not.mp h9
    · rintro ⟨c', hcc, hp⟩
      injection hcc with e1 e2
      subst e1 e2
      obtain ⟨a1, a2, a3, a4, a5, a6, a7, a8, a9, a10, a11, a12, a13⟩ := hp
      refine ⟨by simp, by omega, by omega, by omega, by omega, by omega, by simp [a9], by omega,
        by simp [a11], by omega, by omega, trivial⟩

/-! ## Machine arithmetic -/

/-- Two wrapping products are the exact product reduced once. -/
theorem mul64_mul64 (a b c : Nat) : mul64 (mul64 a b) c = (a * b * c) % word := by
  unfold mul64
  rw [Nat.mod_mul_mod]

/-- The fund product of the code is the exact product reduced once. -/
theorem mul64_add64 (a b f d : Nat) :
    mul64 (mul64 (add64 a b) f) d = ((a + b) * f * d) % word := by
  unfold mul64 add64
  rw [Nat.mod_mul_mod, Nat.mul_assoc, Nat.mod_mul_mod, ← Nat.mul_assoc]

/-- A wrapping product is at most the exact product. -/
theorem mul64_mul64_le (a b c : Nat) : mul64 (mul64 a b) c ≤ a * b * c := by
  rw [mul64_mul64]
  exact Nat.mod_le _ _

/-- Without borrow the wrapping difference is the exact one. -/
theorem sub64_of_le (e s : Nat) (hle : s ≤ e) (he : e < 2 ^ 64) : sub64 e s = e - s := by
  unfold sub64 word
  have hs : s % 2 ^ 64 = s := Nat.mod_eq_of_lt (by omega)
  rw [hs]
  have : e + (2 ^ 64 - s) = (e - s) + 2 ^ 64 := by omega
  rw [this, Nat.add_mod_right]
  exact Nat.mod_eq_of_lt (by omega)

/-- With borrow the wrapping difference is the exact one plus `2 ^ 64`. -/
theorem sub64_of_lt (e s : Nat) (hlt : e < s) (hs : s < 2 ^ 64) :
    sub64 e s = e + 2 ^ 64 - s := by
  unfold sub64 word
  have hs1 : s % 2 ^ 64 = s := Nat.mod_eq_of_lt hs
  rw [hs1]
  have : e + (2 ^ 64 - s) = e + 2 ^ 64 - s := by omega
  rw [this]
  exact Nat.mod_eq_of_lt (by omega)

/-- The conversion `uint64(x)` keeps a value in range. -/
theorem toUint64_of_nonneg (x : Int) (h0 : 0 ≤ x) (h1 : x < 2 ^ 64) :
    toUint64 x = x.toNat := by
  unfold toUint64 word
  have : x % ((2 ^ 64 : Nat) : Int) = x := Int.emod_eq_of_lt h0 (by simpa using h1)
  rw [this]

/-! ## Checks of considerContract -/

/-- C4 (counterexample): `wrapHost` accepts `wrapContract`, whose fund of 0 is
below the exact product `(burn + price) * filesize * (end - start)`: the
64-bit product wraps to 0. -/
theorem fund_check_wraps :
    validate wrapHost wrapTx = some none
      ∧ ¬ ((wrapContract.ContractFund : Int)
          ≥ ((wrapHost.announcement.Burn : Int) + (wrapHost.announcement.Price : Int))
            * (wrapContract.FileSize : Int)
            * ((wrapContract.End : Int) - (wrapContract.Start : Int))) := by
  constructor
  · rfl
  · decide

/-- C4 (amended): a contract that passes validation is the only contract of
its transaction and its fund is at least the product
`(burn + price) * filesize * (end - start)` as the code computes it, wrapped
to 64 bits; when `start ≤ end` and the exact product fits 64 bits, the fund
covers the exact product. -/
theorem fund_covers_wrapped_product (h : Host) (t : Transaction)
    (hv : validate h t = some none) :
    ∃ c, t.FileContracts = [c]
      ∧ ((h.announcement.Burn + h.announcement.Price) * c.FileSize * sub64 c.End c.Start)
          % 2 ^ 64 ≤ c.ContractFund
      ∧ (c.Start ≤ c.End → c.End < 2 ^ 64 →
          (h.announcement.Burn + h.announcement.Price) * c.FileSize * (c.End - c.Start)
            < 2 ^ 64 →
          (c.ContractFund : Int)
            ≥ ((h.announcement.Burn : Int) + (h.announcement.Price : Int))
              * (c.FileSize : Int) * ((c.End : Int) - (c.Start : Int))) := by
  obtain ⟨c, hc, hp⟩ := (validate_pass_iff h t).mp hv
  refine ⟨c, hc, ?_, ?_⟩
  · have := hp.fund
    rw [mul64_add64] at this
    exact this
  · intro hle he hlt
    have hf := hp.fund
    rw [mul64_add64, sub64_of_le _ _ hle he, word, Nat.mod_eq_of_lt hlt] at hf
    have hcast : (((h.announcement.Burn + h.announcement.Price) * c.FileSize
        * (c.End - c.Start) : Nat) : Int)
        = ((h.announcement.Burn : Int) + (h.announcement.Price : Int))
          * (c.FileSize : Int) * ((c.End : Int) - (c.Start : Int)) := by
      push_cast [Nat.cast_sub hle]
      ring
    rw [ge_iff_le, ← hcast]
    exact_mod_cast hf

/-- Witness of C4 (amended) on the scenario of spec §8. -/
theorem fund_covers_wrapped_product_witness :
    validate scenarioHost scenarioTx = some none
      ∧ ∃ c, scenarioTx.FileContracts = [c]
        ∧ ((scenarioHost.announcement.Burn + scenarioHost.announcement.Price) * c.FileSize
            * sub64 c.End c.Start) % 2 ^ 64 ≤ c.ContractFund
        ∧ (c.Start ≤ c.End → c.End < 2 ^ 64 →
            (scenarioHost.announcement.Burn + scenarioHost.announcement.Price) * c.FileSize
              * (c.End - c.Start) < 2 ^ 64 →
            (c.ContractFund : Int)
              ≥ ((scenarioHost.announcement.Burn : Int)
                  + (scenarioHost.announcement.Price : Int))
                * (c.FileSize : Int) * ((c.End : Int) - (c.Start : Int))) :=
  ⟨rfl, fund_covers_wrapped_product scenarioHost scenarioTx rfl⟩

/-- C5 (counterexample): `wrapHost` accepts `wrapContract`, whose valid-proof
payout of 0 is below the exact product `price * filesize * challengeWindow`. -/
theorem valid_payout_check_wraps :
    validate wrapHost wrapTx = some none
      ∧ ¬ (wrapContract.ValidProofPayout
          ≥ wrapHost.announcement.Price * wrapContract.FileSize
            * wrapContract.ChallengeWindow) := by
  constructor
  · rfl
  · decide

/-- C5 (amended): for a contract that passes validation the missed-proof
payout is at most the exact product `burn * filesize * challengeWindow`; the
valid-proof payout is at least `price * filesize * challengeWindow` wrapped to
64 bits, hence at least the exact product when that fits 64 bits. -/
theorem payouts_within_wrapped_products (h : Host) (t : Transaction)
    (hv : validate h t = some none) :
    ∃ c, t.FileContracts = [c]
      ∧ c.MissedProofPayout ≤ h.announcement.Burn * c.FileSize * c.ChallengeWindow
      ∧ (h.announcement.Price * c.FileSize * c.ChallengeWindow) % 2 ^ 64 ≤ c.ValidProofPayout
      ∧ (h.announcement.Price * c.FileSize * c.ChallengeWindow < 2 ^ 64 →
          c.ValidProofPayout ≥ h.announcement.Price * c.FileSize * c.ChallengeWindow) := by
  obtain ⟨c, hc, hp⟩ := (validate_pass_iff h t).mp hv
  refine ⟨c, hc, ?_, ?_, ?_⟩
  · exact le_trans hp.missedPay (mul64_mul64_le _ _ _)
  · have := hp.validPay
    rw [mul64_mul64] at this
    exact this
  · intro hlt
    have := hp.validPay
    rw [mul64_mul64, word, Nat.mod_eq_of_lt hlt] at this
    exact this

/-- Witness of C5 (amended) on the scenario of spec §8. -/
theorem payouts_within_wrapped_products_witness :
    validate scenarioHost scenarioTx = some none
      ∧ ∃ c, scenarioTx.FileContracts = [c]
        ∧ c.MissedProofPayout ≤ scenarioHost.announcement.Burn * c.FileSize * c.ChallengeWindow
        ∧ (scenarioHost.announcement.Price * c.FileSize * c.ChallengeWindow) % 2 ^ 64
            ≤ c.ValidProofPayout
        ∧ (scenarioHost.announcement.Price * c.FileSize * c.ChallengeWindow < 2 ^ 64 →
            c.ValidProofPayout
              ≥ scenarioHost.announcement.Price * c.FileSize * c.ChallengeWindow) :=
  ⟨rfl, payouts_within_wrapped_products scenarioHost scenarioTx rfl⟩

/-- C6 (counterexample): `lateHost`, at height 5 with maximum duration
`2 ^ 64 - 1`, accepts `lateContract`, which ended at height 0: the exact
duration `end - currentHeight` is `-5`, below the minimum duration 0. -/
theorem duration_check_wraps :
    validate lateHost lateTx = some none
      ∧ lateContract.End < lateHost.height
      ∧ ¬ ((lateHost.announcement.MinDuration : Int)
          ≤ (lateContract.End : Int) - (lateHost.height : Int)) := by
  refine ⟨rfl, by decide, by decide⟩

/-- C6 (amended): for a contract that passes validation the duration
`end - currentHeight` wrapped to 64 bits lies between the policy bounds; when
`currentHeight ≤ end` the exact duration lies between them; and a contract
with `end < currentHeight` passes only under a maximum duration of at least
`2 ^ 64 - (currentHeight - end)`. -/
theorem duration_within_wrapped_bounds (h : Host) (t : Transaction)
    (hv : validate h t = some none) :
    ∃ c, t.FileContracts = [c]
      ∧ h.announcement.MinDuration ≤ sub64 c.End h.height
      ∧ sub64 c.End h.height ≤ h.announcement.MaxDuration
      ∧ (h.height ≤ c.End → c.End < 2 ^ 64 →
          (h.announcement.MinDuration : Int) ≤ (c.End : Int) - (h.height : Int)
            ∧ (c.End : Int) - (h.height : Int) ≤ (h.announcement.MaxDuration : Int))
      ∧ (c.End < h.height → h.height < 2 ^ 64 →
          2 ^ 64 - (h.height - c.End) ≤ h.announcement.MaxDuration) := by
  obtain ⟨c, hc, hp⟩ := (validate_pass_iff h t).mp hv
  refine ⟨c, hc, hp.minDur, hp.maxDur, ?_, ?_⟩
  · intro hle he
    have h1 := hp.minDur
    have h2 := hp.maxDur
    rw [sub64_of_le _ _ hle he] at h1 h2
    omega
  · intro hlt hh
    have h2 := hp.maxDur
    rw [sub64_of_lt _ _ hlt hh] at h2
    omega

/-- Witness of C6 (amended) on the scenario of spec §8. -/
theorem duration_within_wrapped_bounds_witness :
    validate scenarioHost scenarioTx = some none
      ∧ ∃ c, scenarioTx.FileContracts = [c]
        ∧ scenarioHost.announcement.MinDuration ≤ sub64 c.End scenarioHost.height
        ∧ sub64 c.End scenarioHost.height ≤ scenarioHost.announcement.MaxDuration
        ∧ (scenarioHost.height ≤ c.End → c.End < 2 ^ 64 →
            (scenarioHost.announcement.MinDuration : Int)
                ≤ (c.End : Int) - (scenarioHost.height : Int)
              ∧ (c.End : Int) - (scenarioHost.height : Int)
                ≤ (scenarioHost.announcement.MaxDuration : Int))
        ∧ (c.End < scenarioHost.height → scenarioHost.height < 2 ^ 64 →
            2 ^ 64 - (scenarioHost.height - c.End) ≤ scenarioHost.announcement.MaxDuration) :=
  ⟨rfl, duration_within_wrapped_bounds scenarioHost scenarioTx rfl⟩

/-- C7 (code at the failing input): on a transaction without file contracts
`considerContract` panics on `t.FileContracts[0]` before the count is
checked; with two or more contracts it returns the rejection without calling
the wallet. -/
theorem considerContract_count_check (w : Wallet) (h : Host) (o : Nat) :
    considerContract w h { FileContracts := [], other := o } = none
      ∧ ∀ c1 c2 rest, ∃ r,
          considerContract w h { FileContracts := c1 :: c2 :: rest, other := o } = some r
            ∧ r.ret = .error "transaction must have exactly one contract"
            ∧ r.calls = [] ∧ r.host = h := by
  constructor
  · rfl
  · intro c1 c2 rest
    refine ⟨{ ret := .error "transaction must have exactly one contract", calls := [],
              host := h }, ?_, rfl, rfl, rfl⟩
    simp [considerContract, validate]

/-- The checks of the code agree with the reference validator when nothing
wraps. -/
theorem validate_eq_reference (h : Host) (c : FileContract) (o : Nat) (hn : NoWrap h c) :
    validate h { FileContracts := [c], other := o }
      = some (referenceValidator h { FileContracts := [c], other := o } c) := by
  obtain ⟨hE, hH, hS, hs0, hs1, hV, hM, hF⟩ := hn
  have e1 : sub64 c.End h.height = c.End - h.height := sub64_of_le _ _ hH hE
  have e2 : sub64 c.End c.Start = c.End - c.Start := sub64_of_le _ _ hS hE
  have e3 : toUint64 h.spaceRemaining = h.spaceRemaining.toNat :=
    toUint64_of_nonneg _ hs0 hs1
  have e4 : mul64 (mul64 h.announcement.Price c.FileSize) c.ChallengeWindow
      = h.announcement.Price * c.FileSize * c.ChallengeWindow := by
    rw [mul64_mul64, word, Nat.mod_eq_of_lt hV]
  have e5 : mul64 (mul64 h.announcement.Burn c.FileSize) c.ChallengeWindow
      = h.announcement.Burn * c.FileSize * c.ChallengeWindow := by
    rw [mul64_mul64, word, Nat.mod_eq_of_lt hM]
  have e6 : mul64 (mul64 (add64 h.announcement.Burn h.announcement.Price) c.FileSize)
      (sub64 c.End c.Start)
      = (h.announcement.Burn + h.announcement.Price) * c.FileSize * (c.End - c.Start) := by
    rw [mul64_add64, e2, word, Nat.mod_eq_of_lt hF]
  have hcast : ((h.announcement.Burn : Int) + (h.announcement.Price : Int))
        * (c.FileSize : Int) * ((c.End : Int) - (c.Start : Int))
      = (((h.announcement.Burn + h.announcement.Price) * c.FileSize
        * (c.End - c.Start) : Nat) : Int) := by
    push_cast [Nat.cast_sub hS]
    ring
  unfold validate referenceValidator specChecks
  simp only [firstFailure, e1, e3, e4, e5, e6, hcast, List.length_singleton, ne_eq,
    not_true_eq_false, if_false, decide_True, if_true]
  generalize (h.announcement.Burn + h.announcement.Price) * c.FileSize * (c.End - c.Start) = F
  generalize h.announcement.Price * c.FileSize * c.ChallengeWindow = V
  generalize h.announcement.Burn * c.FileSize * c.ChallengeWindow = M
  by_cases c2 : h.announcement.MinFilesize ≤ c.FileSize ∧ c.FileSize ≤ h.announcement.MaxFilesize
  · rw [if_neg (by omega), decide_eq_true c2, if_pos rfl]
    by_cases c3 : (c.FileSize : Int) ≤ h.spaceRemaining
    · rw [if_neg (by omega), decide_eq_true c3, if_pos rfl]
      by_cases c4 : (h.announcement.MinDuration : Int) ≤ (c.End : Int) - (h.height : Int)
          ∧ (c.End : Int) - (h.height : Int) ≤ (h.announcement.MaxDuration : Int)
      · rw [if_neg (by omega), decide_eq_true c4, if_pos rfl]
        by_cases c5 : h.announcement.MinChallengeWindow ≤ c.ChallengeWindow
            ∧ c.ChallengeWindow ≤ h.announcement.MaxChallengeWindow
        · rw [if_neg (by omega), decide_eq_true c5, if_pos rfl]
          by_cases c6 : c.Tolerance ≥ h.announcement.MinTolerance
          · rw [if_neg (by omega), decide_eq_true c6, if_pos rfl]
            by_cases c7 : c.ValidProofAddress = h.announcement.CoinAddress
            · rw [if_neg (not_not.mpr c7), decide_eq_true c7, if_pos rfl]
              by_cases c8 : c.ValidProofPayout ≥ V
              · rw [if_neg (by omega), decide_eq_true c8, if_pos rfl]
                by_cases c9 : c.MissedProofAddress = 0
                · rw [if_neg (not_not.mpr c9), decide_eq_true c9, if_pos rfl]
                  by_cases c10 : c.MissedProofPayout ≤ M
                  · rw [if_neg (by omega), decide_eq_true c10, if_pos rfl]
                    by_cases c11 : (c.ContractFund : Int) ≥ (F : Int)
                    · rw [if_neg (by omega), decide_eq_true c11, if_pos rfl]
                    · rw [if_pos (by omega), decide_eq_false c11, if_neg (by simp)]
                  · rw [if_pos (by omega), decide_eq_false c10, if_neg (by simp)]
                · rw [if_pos c9, decide_eq_false c9, if_neg (by simp)]
              · rw [if_pos (by omega), decide_eq_false c8, if_neg (by simp)]
            · rw [if_pos c7, decide_eq_false c7, if_neg (by simp)]
          · rw [if_pos (by omega), decide_eq_false c6, if_neg (by simp)]
        · rw [if_pos (by omega), decide_eq_false c5, if_neg (by simp)]
      · rw [if_pos (by omega), decide_eq_false c4, if_neg (by simp)]
    · rw [if_pos (by omega), decide_eq_false c3, if_neg (by simp)]
  · rw [if_pos (by omega), decide_eq_false c2, if_neg (by simp)]

/-- After a rejection by the checks `considerContract` returns it and calls
nothing. -/
theorem considerContract_of_reject (w : Wallet) (h : Host) (t : Transaction) (e : String)
    (hv : validate h t = some (some e)) :
    considerContract w h t = some { ret := .error e, calls := [], host := h } := by
  unfold considerContract
  rw [hv]

/-- After the checks pass `considerContract` registers the transaction with
the wallet first. -/
theorem considerContract_of_pass (w : Wallet) (h : Host) (t : Transaction)
    (hv : validate h t = some none) :
    ∃ r, considerContract w h t = some r ∧ r.calls ≠ [] ∧ r.host = h := by
  obtain ⟨c, hc, -⟩ := (validate_pass_iff h t).mp hv
  unfold considerContract
  rw [hv]
  simp only [hc]
  rcases w.RegisterTransaction t with e | id
  · exact ⟨_, rfl, by simp, rfl⟩
  · simp only
    rcases w.FundTransaction id _ with _ | e
    · exact ⟨_, rfl, by simp, rfl⟩
    · exact ⟨_, rfl, by simp, rfl⟩

/-- C8 (counterexample): on `wrapHost` and `wrapContract` the valid-proof
payout check of the reference validator fails, yet `considerContract` rejects
nothing and makes its three wallet calls. -/
theorem reference_rejects_wrapped_payout :
    referenceValidator wrapHost wrapTx wrapContract = some "valid proof payout is too low"
      ∧ validate wrapHost wrapTx = some none
      ∧ (considerContract scenarioWallet wrapHost wrapTx).map (fun r => r.calls.length)
          = some 3 := by
  refine ⟨rfl, rfl, rfl⟩

/-- C8 (amended): for a transaction with exactly one contract, on a host
state where no difference or product of the checks leaves the unsigned 64-bit
range, `considerContract` behaves as the reference validator: a failing check
gives the rejection of the first check that fails in the listed order with
no wallet call, and the wallet is called exactly when no check fails. -/
theorem considerContract_refines_reference (w : Wallet) (h : Host) (c : FileContract)
    (o : Nat) (hn : NoWrap h c) :
    ∃ r, considerContract w h { FileContracts := [c], other := o } = some r
      ∧ (∀ e, referenceValidator h { FileContracts := [c], other := o } c = some e →
          r.ret = .error e ∧ r.calls = [])
      ∧ (r.calls ≠ [] ↔ referenceValidator h { FileContracts := [c], other := o } c = none) := by
  have hv := validate_eq_reference h c o hn
  rcases hr : referenceValidator h { FileContracts := [c], other := o } c with _ | e
  · rw [hr] at hv
    obtain ⟨r, h1, h2, -⟩ := considerContract_of_pass w h _ hv
    exact ⟨r, h1, by simp, by simp [h2]⟩
  · rw [hr] at hv
    refine ⟨_, considerContract_of_reject w h _ e hv, ?_, by simp⟩
    intro e1 he1
    injection he1 with he1
    subst he1
    exact ⟨rfl, rfl⟩

/-- Witness of C8 (amended) on the scenario of spec §8. -/
theorem considerContract_refines_reference_witness :
    NoWrap scenarioHost scenarioContract
      ∧ ∃ r, considerContract scenarioWallet scenarioHost
            { FileContracts := [scenarioContract], other := 0 } = some r
        ∧ (∀ e, referenceValidator scenarioHost
              { FileContracts := [scenarioContract], other := 0 } scenarioContract = some e →
            r.ret = .error e ∧ r.calls = [])
        ∧ (r.calls ≠ [] ↔ referenceValidator scenarioHost
              { FileContracts := [scenarioContract], other := 0 } scenarioContract = none) :=
  ⟨⟨by decide, by decide, by decide, by decide, by decide, by decide, by decide, by decide⟩,
    considerContract_refines_reference scenarioWallet scenarioHost scenarioContract 0
      ⟨by decide, by decide, by decide, by decide, by decide, by decide, by decide, by decide⟩⟩

/-- C9: when a check of `considerContract` rejects the transaction, the
rejection is returned, no wallet call is made and the host (remaining
capacity, file index, proof schedule) is as before; `NegotiateContract`, on
receiving such a transaction, leaves the host, the wallet, the disk and the
transaction pool untouched. -/
theorem policy_rejection_reserves_nothing (env : Env) (s : World) (t : Transaction)
    (e : String) (hv : validate s.host t = some (some e)) :
    (∃ r, considerContract env.wallet s.host t = some r
        ∧ r.ret = .error e ∧ r.calls = []
        ∧ r.host.spaceRemaining = s.host.spaceRemaining ∧ r.host.Files = s.host.Files
        ∧ r.host.Index = s.host.Index
        ∧ r.host.ForwardContracts = s.host.ForwardContracts)
      ∧ (env.readObject = .ok t →
          ∃ err s1, NegotiateContract env s = some (err, s1)
            ∧ s1.host = s.host ∧ s1.walletCalls = s.walletCalls ∧ s1.fs = s.fs
            ∧ s1.submitted = s.submitted) := by
  have hc := considerContract_of_reject env.wallet s.host t e hv
  refine ⟨⟨_, hc, rfl, rfl, rfl, rfl, rfl, rfl⟩, ?_⟩
  intro hr
  unfold NegotiateContract
  rw [hr]
  simp only [hc]
  exact ⟨_, _, rfl, rfl, by simp, rfl, rfl⟩

/-- Witness of C9: a contract of file size 0 on a host whose minimum file
size is 1. -/
theorem policy_rejection_reserves_nothing_witness :
    validate scenarioWorld.host smallTx
        = some (some "file is of incorrect size - filesize 0, min 1, max 1000000")
      ∧ ((∃ r, considerContract smallEnv.wallet scenarioWorld.host smallTx = some r
          ∧ r.ret = .error "file is of incorrect size - filesize 0, min 1, max 1000000"
          ∧ r.calls = []
          ∧ r.host.spaceRemaining = scenarioWorld.host.spaceRemaining
          ∧ r.host.Files = scenarioWorld.host.Files
          ∧ r.host.Index = scenarioWorld.host.Index
          ∧ r.host.ForwardContracts = scenarioWorld.host.ForwardContracts)
        ∧ (smallEnv.readObject = .ok smallTx →
            ∃ err s1, NegotiateContract smallEnv scenarioWorld = some (err, s1)
              ∧ s1.host = scenarioWorld.host ∧ s1.walletCalls = scenarioWorld.walletCalls
              ∧ s1.fs = scenarioWorld.fs ∧ s1.submitted = scenarioWorld.submitted)) :=
  ⟨by decide, policy_rejection_reserves_nothing smallEnv scenarioWorld smallTx _ (by decide)⟩
/-! ## NegotiateContract -/

/-- The host is the same after `considerContract`. -/
theorem considerContract_host (w : Wallet) (h : Host) (t : Transaction) (r : Considered)
    (hr : considerContract w h t = some r) : r.host = h := by
  unfold considerContract at hr
  rcases hv : validate h t with _ | (_ | e)
  · rw [hv] at hr; simp at hr
  · rw [hv] at hr
    simp only at hr
    rcases hc : t.FileContracts with _ | ⟨c, rest⟩
    · rw [hc] at hr; simp at hr
    · rw [hc] at hr
      simp only at hr
      rcases hreg : w.RegisterTransaction t with e | id
      · rw [hreg] at hr
        simp only [Option.some.injEq] at hr
        rw [← hr]
      · rw [hreg] at hr
        simp only at hr
        rcases hfund : w.FundTransaction id
            (mul64 (mul64 h.announcement.Burn c.FileSize) (sub64 c.End c.Start)) with _ | e
        · rw [hfund] at hr
          simp only [Option.some.injEq] at hr
          rw [← hr]
        · rw [hfund] at hr
          simp only [Option.some.injEq] at hr
          rw [← hr]
  · rw [hv] at hr
    simp only [Option.some.injEq] at hr
    rw [← hr]

/-- The conversion `int64(x)` keeps a size below `2 ^ 63`. -/
theorem toInt64_of_lt (x : Nat) (hx : x < 2 ^ 63) : toInt64 x = (x : Int) := by
  unfold toInt64 word
  have : x % 2 ^ 64 = x := Nat.mod_eq_of_lt (by omega)
  rw [this, if_pos hx]

/-- The file size of a validated contract fits `int64` when the capacity
counter of the host is a non-negative `int64`. -/
theorem validated_size_lt (h : Host) (t : Transaction) (hv : validate h t = some none)
    (h0 : 0 ≤ h.spaceRemaining) (h1 : h.spaceRemaining < 2 ^ 63) :
    ∃ c, t.FileContracts = [c] ∧ c.FileSize < 2 ^ 63 := by
  obtain ⟨c, hc, hp⟩ := (validate_pass_iff h t).mp hv
  refine ⟨c, hc, ?_⟩
  have hs := hp.space
  rw [toUint64_of_nonneg _ h0 (by omega)] at hs
  omega

/-- C10 (counterexample): for `hugeContract`, of file size `2 ^ 63`, the peer
delivers 16 bytes, fewer than the file size, yet `NegotiateContract` returns
no error, keeps the (empty) destination file `host/0`, submits the
transaction, records the file and schedules the proof: `int64(FileSize)` is
negative, so `io.CopyN` copies nothing and returns no error. -/
theorem short_delivery_is_committed :
    validate hugeHost hugeTx = some none
      ∧ hugeEnv.delivered.length < hugeContract.FileSize
      ∧ toInt64 hugeContract.FileSize < 0
      ∧ (NegotiateContract hugeEnv hugeWorld).map
          (fun r => (r.1, r.2.fs "host/0", r.2.submitted.length,
            r.2.host.Files hugeContract.FileMerkleRoot, r.2.host.Index,
            (r.2.host.ForwardContracts 11).length))
        = some (none, some ([] : Bytes), 1, some "0", 1, 1) := by
  refine ⟨rfl, by decide, by decide, rfl⟩

/-- C10 (amended): in a negotiation that has reached the transfer (the
contract was accepted and signed, the acceptance written, the destination
created) for a contract of file size below `2 ^ 63`, the sizes `int64` can
hold, if the peer delivers fewer than `filesize` bytes, or `filesize` bytes
whose recomputed Merkle root is not the contract's, then `NegotiateContract`
returns an error, the destination file is gone, nothing was submitted to the
transaction pool and `Files`, `Index` and `ForwardContracts` are unchanged. -/
theorem failed_transfer_is_atomic (env : Env) (s : World) (t0 t : Transaction)
    (r : Considered) (c : FileContract) (rest : List FileContract)
    (hread : env.readObject = .ok t0)
    (hcons : considerContract env.wallet s.host t0 = some r)
    (hret : r.ret = .ok t)
    (hacc : env.writeObject env.AcceptContractResponse = none)
    (hcreate : env.createErr = none)
    (hc : t.FileContracts = c :: rest)
    (hsize : c.FileSize < 2 ^ 63)
    (hbad : env.delivered.length < c.FileSize
      ∨ (c.FileSize ≤ env.delivered.length
        ∧ env.ReaderMerkleRoot (env.delivered.take c.FileSize)
            (env.CalculateSegments c.FileSize) ≠ .ok c.FileMerkleRoot)) :
    ∃ e s1, NegotiateContract env s = some (some e, s1)
      ∧ s1.fs (env.hostDir ++ toString s.host.Index) = none
      ∧ s1.submitted = s.submitted
      ∧ s1.host.Files = s.host.Files ∧ s1.host.Index = s.host.Index
      ∧ s1.host.ForwardContracts = s.host.ForwardContracts := by
  have hh : r.host = s.host := considerContract_host _ _ _ _ hcons
  unfold NegotiateContract
  rw [hread]
  simp only [hcons, hret, hacc, hcreate, hc, toInt64_of_lt _ hsize, hh]
  rcases hbad with hshort | ⟨hfull, hroot⟩
  · have hcp : copyN env.delivered env.connErr (c.FileSize : Int)
        = (env.delivered, some (env.connErr.getD "EOF")) := by
      unfold copyN
      rw [if_neg (by omega)]
    rw [hcp]
    exact ⟨_, _, rfl, by simp [finish], rfl, rfl, rfl, rfl⟩
  · have hcp : copyN env.delivered env.connErr (c.FileSize : Int)
        = (env.delivered.take c.FileSize, none) := by
      unfold copyN
      rw [if_pos (by omega)]
      simp
    rw [hcp]
    simp only
    rcases env.seekErr with _ | e
    · simp only
      rcases hm : env.ReaderMerkleRoot (env.delivered.take c.FileSize)
          (env.CalculateSegments c.FileSize) with e | m
      · exact ⟨_, _, rfl, by simp [finish], rfl, rfl, rfl, rfl⟩
      · have hne : m ≠ c.FileMerkleRoot := by
          intro heq
          apply hroot
          rw [hm, heq]
        simp only [hne, ne_eq, not_false_eq_true, if_true]
        exact ⟨_, _, rfl, by simp [finish], rfl, rfl, rfl, rfl⟩
    · exact ⟨_, _, rfl, by simp [finish], rfl, rfl, rfl, rfl⟩

/-- Witness of C10 (amended): the scenario of spec §8 with 10 of the 1024
bytes delivered. -/
theorem failed_transfer_is_atomic_witness :
    ∃ e s1, NegotiateContract shortEnv scenarioWorld = some (some e, s1)
      ∧ s1.fs (shortEnv.hostDir ++ toString scenarioWorld.host.Index) = none
      ∧ s1.submitted = scenarioWorld.submitted
      ∧ s1.host.Files = scenarioWorld.host.Files ∧ s1.host.Index = scenarioWorld.host.Index
      ∧ s1.host.ForwardContracts = scenarioWorld.host.ForwardContracts :=
  failed_transfer_is_atomic shortEnv scenarioWorld scenarioTx
    { FileContracts := [scenarioContract], other := 1 }
    { ret := .ok { FileContracts := [scenarioContract], other := 1 }
      calls := [.register scenarioTx, .fund "id" 97280, .sign "id" true]
      host := scenarioHost }
    scenarioContract [] rfl rfl rfl rfl rfl rfl (by decide) (Or.inl (by decide))

/-! ## Merkle tree: arithmetic of aligned blocks -/

/-- Rounding `i` down to a multiple of `2 ^ h` gives the start `a` of the
aligned block of `2 ^ h` leaves that holds `i`. -/
theorem block_start (h a i : Nat) (hd : 2 ^ h ∣ a) (h1 : a ≤ i) (h2 : i < a + 2 ^ h) :
    i / 2 ^ h * 2 ^ h = a := by
  obtain ⟨q, rfl⟩ := hd
  have hp : 0 < 2 ^ h := Nat.two_pow_pos _
  have hq : i / 2 ^ h = q := by
    apply Nat.div_eq_of_lt_le
    · rw [Nat.mul_comm]; exact h1
    · rw [Nat.succ_mul, Nat.mul_comm]; exact h2
  rw [hq, Nat.mul_comm]

/-- In the left half of a block of `2 ^ (h + 1)` leaves the index has bit
`h` clear. -/
theorem bit_clear (h a i : Nat) (hd : 2 ^ (h + 1) ∣ a) (h1 : a ≤ i) (h2 : i < a + 2 ^ h) :
    i / 2 ^ h % 2 = 0 := by
  obtain ⟨q, rfl⟩ := hd
  have hp : 0 < 2 ^ h := Nat.two_pow_pos _
  have hq : i / 2 ^ h = 2 * q := by
    apply Nat.div_eq_of_lt_le
    · calc 2 * q * 2 ^ h = 2 ^ (h + 1) * q := by rw [pow_succ]; ring
        _ ≤ i := h1
    · calc i < 2 ^ (h + 1) * q + 2 ^ h := h2
        _ = (2 * q).succ * 2 ^ h := by rw [pow_succ, Nat.succ_mul]; ring
  rw [hq]
  omega

/-- In the right half of a block of `2 ^ (h + 1)` leaves the index has bit
`h` set. -/
theorem bit_set (h a i : Nat) (hd : 2 ^ (h + 1) ∣ a) (h1 : a + 2 ^ h ≤ i)
    (h2 : i < a + 2 ^ (h + 1)) : i / 2 ^ h % 2 = 1 := by
  obtain ⟨q, rfl⟩ := hd
  have hp : 0 < 2 ^ h := Nat.two_pow_pos _
  have hq : i / 2 ^ h = 2 * q + 1 := by
    apply Nat.div_eq_of_lt_le
    · calc (2 * q + 1) * 2 ^ h = 2 ^ (h + 1) * q + 2 ^ h := by rw [pow_succ]; ring
        _ ≤ i := h1
    · calc i < 2 ^ (h + 1) * q + 2 ^ (h + 1) := h2
        _ = (2 * q + 1).succ * 2 ^ h := by rw [pow_succ, Nat.succ_mul]; ring
  rw [hq]
  omega

/-- The test of `verifyProof` for the first half of a block reads bit `k` of
the proof index. -/
theorem first_half_iff (i k : Nat) :
    i - i / 2 ^ (k + 1) * 2 ^ (k + 1) < 2 ^ k ↔ i / 2 ^ k % 2 = 0 := by
  have hp : 0 < 2 ^ k := Nat.two_pow_pos _
  have e1 : i / 2 ^ (k + 1) = i / 2 ^ k / 2 := by
    rw [pow_succ, Nat.div_div_eq_div_mul]
  have e2 := Nat.div_add_mod i (2 ^ k)
  have e3 := Nat.div_add_mod (i / 2 ^ k) 2
  have hr : i % 2 ^ k < 2 ^ k := Nat.mod_lt _ hp
  rw [e1, pow_succ]
  generalize i / 2 ^ k = d at *
  generalize i % 2 ^ k = r at *
  generalize 2 ^ k = p at *
  have hb : d % 2 < 2 := Nat.mod_lt _ (by decide)
  generalize d / 2 = q at *
  generalize d % 2 = b at *
  subst e3
  subst e2
  have hb' : b = 0 ∨ b = 1 := by omega
  rcases hb' with rfl | rfl
  · simp only [Nat.add_zero]
    have : p * (2 * q) + r - q * (p * 2) = r := by
      have : q * (p * 2) = p * (2 * q) := by ring
      rw [this]; omega
    rw [this]
    simp [hr]
  · have : p * (2 * q + 1) + r - q * (p * 2) = p + r := by
      have : p * (2 * q + 1) = q * (p * 2) + p := by ring
      rw [this]; omega
    rw [this]
    simp
/-! ## Merkle tree: the stack -/

namespace merkletree

/-- A lower bound on the heights may be lowered. -/
theorem Ascending.mono {lo lo1 : Nat} {st : List SubTree} (h : Ascending lo st)
    (hle : lo1 ≤ lo) : Ascending lo1 st := by
  cases st with
  | nil => trivial
  | cons s rest => exact ⟨le_trans hle h.1, h.2⟩

/-- The leaves under a stack whose heights are at least `lo` come in blocks
of `2 ^ lo`. -/
theorem Ascending.dvd {lo : Nat} {st : List SubTree} (h : Ascending lo st) :
    2 ^ lo ∣ leafCount st := by
  induction st generalizing lo with
  | nil => simp [leafCount]
  | cons s rest ih =>
    unfold leafCount
    have h1 : 2 ^ lo ∣ 2 ^ s.height := pow_dvd_pow 2 h.1
    have hlo := h.1
    have h2 : 2 ^ lo ∣ leafCount rest := ih (h.2.mono (by omega))
    exact Dvd.dvd.add h1 h2

/-- The parts of an ascending stack around one of its subtrees. -/
theorem Ascending.split {lo : Nat} {xs ys : List SubTree} {s : SubTree}
    (h : Ascending lo (xs ++ s :: ys)) :
    Ascending lo xs ∧ Ascending (s.height + 1) ys ∧ lo ≤ s.height := by
  induction xs generalizing lo with
  | nil => exact ⟨trivial, h.2, h.1⟩
  | cons x xs ih =>
    obtain ⟨h1, h2⟩ := h
    obtain ⟨i1, i2, i3⟩ := ih h2
    exact ⟨⟨h1, i1⟩, i2, by omega⟩

/-- Subtrees of distinct heights below `top` hold fewer than `2 ^ top`
leaves. -/
theorem leafCount_lt {lo top : Nat} {st : List SubTree} (h : Ascending lo st)
    (hlo : lo ≤ top) (hb : ∀ s ∈ st, s.height < top) : leafCount st + 2 ^ lo ≤ 2 ^ top := by
  induction st generalizing lo with
  | nil =>
    simp only [leafCount, Nat.zero_add]
    exact Nat.pow_le_pow_right (by decide) hlo
  | cons s rest ih =>
    have hs : s.height < top := hb s (List.mem_cons_self _ _)
    have := ih h.2 (by omega) (fun x hx => hb x (List.mem_cons_of_mem _ hx))
    have h1 : 2 ^ lo ≤ 2 ^ s.height := Nat.pow_le_pow_right (by decide) h.1
    unfold leafCount
    rw [pow_succ] at this
    omega

/-- The leaves under a stack split at one of its subtrees. -/
theorem leafCount_append (xs ys : List SubTree) :
    leafCount (xs ++ ys) = leafCount xs + leafCount ys := by
  induction xs with
  | nil => simp [leafCount]
  | cons x xs ih => simp [leafCount, ih]; omega

/-- A non-empty stack holds a leaf. -/
theorem leafCount_pos (s : SubTree) (rest : List SubTree) : 0 < leafCount (s :: rest) := by
  unfold leafCount
  have := Nat.two_pow_pos s.height
  omega

/-- The stack after a push does not depend on the proof being built. -/
theorem pushLoop_stack (hs : Hasher) (i ci i1 ci1 : Nat) (cur : SubTree) (st : List SubTree)
    (ps ps1 : List Bytes) :
    (pushLoop hs i ci cur st ps).1 = (pushLoop hs i1 ci1 cur st ps1).1 := by
  induction st generalizing cur ps ps1 with
  | nil => rfl
  | cons nxt rest ih =>
    unfold pushLoop
    by_cases hh : cur.height = nxt.height
    · simp only [hh, if_true]
      exact ih _ _ _
    · simp only [hh, if_false]

/-- A push keeps the stack ascending and adds the leaves of the new
subtree. -/
theorem pushLoop_shape (hs : Hasher) (i ci : Nat) (cur : SubTree) (st : List SubTree)
    (ps : List Bytes) (ha : Ascending cur.height st) :
    Ascending cur.height (pushLoop hs i ci cur st ps).1
      ∧ leafCount (pushLoop hs i ci cur st ps).1 = 2 ^ cur.height + leafCount st := by
  induction st generalizing cur ps with
  | nil => exact ⟨⟨le_refl _, trivial⟩, rfl⟩
  | cons nxt rest ih =>
    unfold pushLoop
    by_cases hh : cur.height = nxt.height
    · simp only [hh, if_true]
      have ha2 : Ascending (joinSubTrees hs nxt cur).height rest := ha.2
      obtain ⟨i1, i2⟩ := ih (joinSubTrees hs nxt cur) _ ha2
      refine ⟨i1.mono (by simp [joinSubTrees]), ?_⟩
      rw [i2]
      simp only [joinSubTrees, leafCount, pow_succ]
      omega
    · simp only [hh, if_false]
      have h1 : cur.height < nxt.height := lt_of_le_of_ne ha.1 hh
      exact ⟨⟨le_refl _, ⟨h1, ha.2⟩⟩, rfl⟩

/-- A push keeps every sum of the stack and of the proof set at
`HashSize` bytes. -/
theorem pushLoop_sized (hs : Hasher) (hw : hs.WellSized) (i ci : Nat) (cur : SubTree)
    (st : List SubTree) (ps : List Bytes) (hc : cur.sum.length = hs.size)
    (hst : SizedStack hs st) (hps : SizedProof hs ps) :
    SizedStack hs (pushLoop hs i ci cur st ps).1
      ∧ SizedProof hs (pushLoop hs i ci cur st ps).2 := by
  induction st generalizing cur ps with
  | nil =>
    refine ⟨?_, hps⟩
    intro s hs1
    simp only [pushLoop, List.mem_singleton] at hs1
    rw [hs1]; exact hc
  | cons nxt rest ih =>
    unfold pushLoop
    have hn : nxt.sum.length = hs.size := hst nxt (List.mem_cons_self _ _)
    have hrest : SizedStack hs rest := fun s h1 => hst s (List.mem_cons_of_mem _ h1)
    by_cases hh : cur.height = nxt.height
    · simp only [hh, if_true]
      apply ih
      · exact hw.2 _ _
      · exact hrest
      · by_cases hl : (nxt.height : Int) = (ps.length : Int) - 1
        · have hne : ps ≠ [] := by
            intro h0
            rw [h0] at hl
            simp at hl
          simp only [hl, if_true]
          obtain ⟨b, tl, rfl⟩ := List.exists_cons_of_ne_nil hne
          split
          · intro x hx
            simp only [List.cons_append, List.tail_cons, List.mem_append,
              List.mem_singleton] at hx
            rcases hx with hx | hx
            · exact hps x hx
            · rw [hx]; exact hc
          · intro x hx
            simp only [List.cons_append, List.tail_cons, List.mem_append,
              List.mem_singleton] at hx
            rcases hx with hx | hx
            · exact hps x hx
            · rw [hx]; exact hn
        · simp only [hl, if_false]
          exact hps
    · simp only [hh, if_false]
      refine ⟨?_, hps⟩
      intro s h1
      simp only [List.mem_cons] at h1
      rcases h1 with h1 | h1 | h1
      · rw [h1]; exact hc
      · rw [h1]; exact hn
      · exact hrest s h1

end merkletree

/-! ## Merkle tree: the proof set during pushes -/

namespace merkletree

/-- Climbing through one more sibling. -/
theorem climb_append (hs : Hasher) (i k : Nat) (sum : Bytes) (xs : List Bytes) (y : Bytes) :
    climb hs i k sum (xs ++ [y])
      = if i / 2 ^ (k + xs.length) % 2 = 0 then hs.nodeSum (climb hs i k sum xs) y
        else hs.nodeSum y (climb hs i k sum xs) := by
  induction xs generalizing k sum with
  | nil => simp [climb]
  | cons x xs ih =>
    have e : climb hs i k sum (x :: xs ++ [y])
        = climb hs i (k + 1)
            (if i / 2 ^ k % 2 = 0 then hs.nodeSum sum x else hs.nodeSum x sum) (xs ++ [y]) := rfl
    have hk : k + 1 + xs.length = k + (x :: xs).length := by
      simp only [List.length_cons]; omega
    rw [e, ih, hk]
    rfl

/-- The index of the leaf being pushed, rounded down to the size of the
subtree being joined, is the number of leaves already in the stack. -/
theorem push_mid (h a ci : Nat) (hd : 2 ^ h ∣ a) (hci : ci + 1 = a + 2 ^ h) :
    ci / 2 ^ h * 2 ^ h = a := by
  have := Nat.two_pow_pos h
  exact block_start h a ci hd (by omega) (by omega)

/-- Before the proof index is reached a push records nothing. -/
theorem pushLoop_nil (hs : Hasher) (i ci : Nat) (cur : SubTree) (st : List SubTree) :
    (pushLoop hs i ci cur st []).2 = [] := by
  induction st generalizing cur with
  | nil => rfl
  | cons nxt rest ih =>
    unfold pushLoop
    by_cases hh : cur.height = nxt.height
    · have hl : ¬ ((nxt.height : Int) = (([] : List Bytes).length : Int) - 1) := by
        simp only [List.length_nil]
        omega
      simp only [hh, if_true, hl, if_false]
      exact ih _
    · simp only [hh, if_false]

/-- A push whose new subtree holds the proof index keeps tracking it. -/
theorem pushLoop_carry (hs : Hasher) (i ci : Nat) (cur : SubTree) (st : List SubTree)
    (base : Bytes) (sibs : List Bytes) (ha : Ascending cur.height st)
    (hh : Holds hs i cur (leafCount st) base sibs)
    (hci : ci + 1 = leafCount st + 2 ^ cur.height) :
    Tracking hs i (pushLoop hs i ci cur st (base :: sibs)).1
      (pushLoop hs i ci cur st (base :: sibs)).2 := by
  induction st generalizing cur sibs with
  | nil => exact ⟨base, sibs, [], cur, [], rfl, rfl, by simp, hh⟩
  | cons nxt rest ih =>
    unfold pushLoop
    by_cases heq : cur.height = nxt.height
    · have hl : (cur.height : Int) = ((base :: sibs).length : Int) - 1 := by
        rw [hh.height]
        simp
      have hmid : ci / 2 ^ cur.height * 2 ^ cur.height = leafCount (nxt :: rest) :=
        push_mid _ _ _ ha.dvd hci
      have hlow := hh.lower
      have hup := hh.upper
      have hnot : ¬ (i < ci / 2 ^ cur.height * 2 ^ cur.height) := by
        rw [hmid]; omega
      rw [if_pos heq]
      simp only [hl, if_true, hnot, if_false]
      have hd : 2 ^ (cur.height + 1) ∣ leafCount rest := by
        rw [heq]; exact ha.2.dvd
      simp only [leafCount] at hlow hup hci
      rw [← heq] at hlow hup hci
      have hbit : i / 2 ^ cur.height % 2 = 1 :=
        bit_set _ _ _ hd (by omega) (by rw [pow_succ]; omega)
      apply ih (joinSubTrees hs nxt cur) (sibs ++ [nxt.sum])
      · exact ha.2
      · refine ⟨?_, ?_, ?_, ?_⟩
        · simp [joinSubTrees, ← heq, hh.height]
        · rw [climb_append, Nat.zero_add, ← hh.height, hbit, ← hh.sum]
          simp [joinSubTrees]
        · omega
        · simp only [joinSubTrees, ← heq, pow_succ]
          omega
      · simp only [joinSubTrees, ← heq, pow_succ]
        omega
    · rw [if_neg heq]
      exact ⟨base, sibs, [], cur, nxt :: rest, rfl, rfl, by simp, hh⟩

/-- A push onto a stack that holds the proof index keeps tracking it. -/
theorem pushLoop_tracking (hs : Hasher) (i ci : Nat) (cur : SubTree) (st : List SubTree)
    (ps : List Bytes) (ha : Ascending cur.height st) (ht : Tracking hs i st ps)
    (hci : ci + 1 = leafCount st + 2 ^ cur.height) :
    Tracking hs i (pushLoop hs i ci cur st ps).1 (pushLoop hs i ci cur st ps).2 := by
  obtain ⟨base, sibs, smaller, S, larger, rfl, rfl, hsm, hh⟩ := ht
  induction smaller generalizing cur with
  | nil =>
    simp only [List.nil_append] at ha hci ⊢
    unfold pushLoop
    by_cases heq : cur.height = S.height
    · have hl : (cur.height : Int) = ((base :: sibs).length : Int) - 1 := by
        rw [heq, hh.height]
        simp
      have hmid : ci / 2 ^ cur.height * 2 ^ cur.height = leafCount (S :: larger) :=
        push_mid _ _ _ ha.dvd hci
      have hlow := hh.lower
      have hup := hh.upper
      have hlt : i < ci / 2 ^ cur.height * 2 ^ cur.height := by
        rw [hmid]; simp only [leafCount]; omega
      rw [if_pos heq]
      simp only [hl, if_true, hlt]
      have hd : 2 ^ (S.height + 1) ∣ leafCount larger := ha.2.dvd
      have hbit : i / 2 ^ S.height % 2 = 0 := bit_clear _ _ _ hd hlow hup
      simp only [leafCount] at hci
      apply pushLoop_carry hs i ci (joinSubTrees hs S cur) larger base (sibs ++ [cur.sum])
      · exact ha.2
      · refine ⟨?_, ?_, hlow, ?_⟩
        · simp [joinSubTrees, hh.height]
        · rw [climb_append, Nat.zero_add, ← hh.height, hbit, ← hh.sum]
          simp [joinSubTrees]
        · simp only [joinSubTrees, pow_succ]
          omega
      · simp only [joinSubTrees, pow_succ]
        rw [heq] at hci
        omega
    · rw [if_neg heq]
      have hlt : cur.height < S.height := lt_of_le_of_ne ha.1 heq
      refine ⟨base, sibs, [cur], S, larger, rfl, rfl, ?_, hh⟩
      intro s hs1
      simp only [List.mem_singleton] at hs1
      rw [hs1]; exact hlt
  | cons s0 sm ih =>
    simp only [List.cons_append] at ha hci ⊢
    unfold pushLoop
    have hs0 : s0.height < S.height := hsm s0 (List.mem_cons_self _ _)
    by_cases heq : cur.height = s0.height
    · have hl : ¬ ((cur.height : Int) = ((base :: sibs).length : Int) - 1) := by
        have := hh.height
        simp only [List.length_cons, Nat.cast_add, Nat.cast_one]
        omega
      rw [if_pos heq]
      simp only [hl, if_false]
      apply ih (joinSubTrees hs s0 cur)
      · exact ha.2
      · simp only [leafCount, joinSubTrees, pow_succ] at hci ⊢
        rw [heq] at hci
        omega
      · exact fun s h1 => hsm s (List.mem_cons_of_mem _ h1)
    · rw [if_neg heq]
      have hlt : cur.height < s0.height := lt_of_le_of_ne ha.1 heq
      refine ⟨base, sibs, cur :: s0 :: sm, S, larger, rfl, rfl, ?_, hh⟩
      intro s h1
      simp only [List.mem_cons] at h1
      rcases h1 with h1 | h1 | h1
      · rw [h1]; omega
      · rw [h1]; exact hs0
      · exact hsm s (List.mem_cons_of_mem _ h1)

end merkletree

/-! ## Merkle tree: the invariant of pushes -/

namespace merkletree

/-- The invariant holds on the empty tree. -/
theorem Inv.new (hs : Hasher) (i : Nat) : Inv hs i 0 (New.SetIndex i) where
  current := rfl
  index := rfl
  ascending := trivial
  count := rfl
  sizedStack := by intro s h; simp [New, Tree.SetIndex] at h
  sizedProof := by intro s h; simp [New, Tree.SetIndex] at h
  before := fun _ => rfl
  after := fun h => absurd h (Nat.not_lt_zero _)

/-- A push keeps the invariant. -/
theorem Inv.push (hs : Hasher) (hw : hs.WellSized) (i n : Nat) (t : Tree) (data : Bytes)
    (h : Inv hs i n t) : Inv hs i (n + 1) (t.Push hs data) := by
  obtain ⟨h1, h2, h3, h4, h5, h6, h7, h8⟩ := h
  have hshape := fun ps => pushLoop_shape hs t.proofIndex t.currentIndex
    { height := 0, sum := hs.leafSum data } t.head ps h3
  have hbase : SizedProof hs (t.proofSet ++ [data]) ∨ t.currentIndex ≠ t.proofIndex := by
    by_cases hc : t.currentIndex = t.proofIndex
    · left
      rw [h7 (by omega)]
      intro x hx
      simp at hx
    · right; exact hc
  have hsized := fun ps hps => pushLoop_sized hs hw t.proofIndex t.currentIndex
    { height := 0, sum := hs.leafSum data } t.head ps (hw.1 data) h5 hps
  refine ⟨?_, ?_, ?_, ?_, ?_, ?_, ?_, ?_⟩
  · simp [Tree.Push, h1]
  · simp [Tree.Push, h2]
  · exact (hshape _).1
  · simp only [Tree.Push]
    rw [(hshape _).2, h4]
    simp
    omega
  · exact (hsized _ (by
      by_cases hc : t.currentIndex = t.proofIndex
      · rw [if_pos hc]
        rcases hbase with hb | hb
        · exact hb
        · exact absurd hc hb
      · rw [if_neg hc]; exact h6)).1
  · exact (hsized _ (by
      by_cases hc : t.currentIndex = t.proofIndex
      · rw [if_pos hc]
        rcases hbase with hb | hb
        · exact hb
        · exact absurd hc hb
      · rw [if_neg hc]; exact h6)).2
  · intro hle
    have hne : t.currentIndex ≠ t.proofIndex := by omega
    simp only [Tree.Push, if_neg hne]
    rw [h7 (by omega)]
    exact pushLoop_nil _ _ _ _ _
  · intro hlt
    simp only [Tree.Push]
    by_cases hc : t.currentIndex = t.proofIndex
    · rw [if_pos hc, h7 (by omega), h2]
      simp only [List.nil_append]
      apply pushLoop_carry
      · exact h3
      · exact ⟨rfl, rfl, by simp only [h4]; omega, by simp only [h4]; omega⟩
      · simp only [h4, h1, pow_zero]
    · rw [if_neg hc, h2]
      apply pushLoop_tracking
      · exact h3
      · exact h8 (by omega)
      · simp only [h4, h1, pow_zero]

/-- The invariant after pushing a list of leaves. -/
theorem Inv.pushAll (hs : Hasher) (hw : hs.WellSized) (i n : Nat) (t : Tree)
    (leaves : List Bytes) (h : Inv hs i n t) :
    Inv hs i (n + leaves.length) (leaves.foldl (Tree.Push hs) t) := by
  induction leaves generalizing n t with
  | nil => exact h
  | cons l rest ih =>
    simp only [List.foldl_cons, List.length_cons]
    have := ih (n + 1) (t.Push hs l) (Inv.push hs hw i n t l h)
    have e : n + (rest.length + 1) = n + 1 + rest.length := by omega
    rw [e]
    exact this

/-- The stack after pushing a list of leaves does not depend on the proof
index. -/
theorem pushAll_head (hs : Hasher) (t1 t2 : Tree) (leaves : List Bytes)
    (h : t1.head = t2.head) :
    (leaves.foldl (Tree.Push hs) t1).head = (leaves.foldl (Tree.Push hs) t2).head := by
  induction leaves generalizing t1 t2 with
  | nil => exact h
  | cons l rest ih =>
    simp only [List.foldl_cons]
    apply ih
    simp only [Tree.Push, h]
    exact pushLoop_stack _ _ _ _ _ _ _ _ _

end merkletree

/-! ## Merkle tree: building and verifying a proof -/

namespace merkletree

/-- A smaller aligned block around `i` lies within the larger one. -/
theorem block_within (h top a i : Nat) (hle : h ≤ top) (hd : 2 ^ top ∣ a)
    (h2 : i < a + 2 ^ top) : i / 2 ^ h * 2 ^ h + 2 ^ h ≤ a + 2 ^ top := by
  have hp : 0 < 2 ^ h := Nat.two_pow_pos h
  have hd1 : 2 ^ h ∣ a + 2 ^ top :=
    Dvd.dvd.add (dvd_trans (pow_dvd_pow 2 hle) hd) (pow_dvd_pow 2 hle)
  obtain ⟨m, hm⟩ := hd1
  rw [hm] at h2 ⊢
  have h3 : i / 2 ^ h < m := by
    rw [Nat.div_lt_iff_lt_mul hp, Nat.mul_comm]
    exact h2
  calc i / 2 ^ h * 2 ^ h + 2 ^ h = (i / 2 ^ h + 1) * 2 ^ h := by ring
    _ ≤ m * 2 ^ h := Nat.mul_le_mul_right _ h3
    _ = 2 ^ h * m := Nat.mul_comm _ _

/-- Joining a run of subtrees gives the sum folded over their sums. -/
theorem fold_join_sum (hs : Hasher) (xs : List SubTree) (cur : SubTree) :
    (xs.foldl (fun c nxt => joinSubTrees hs nxt c) cur).sum
      = (xs.map SubTree.sum).foldl (fun s x => hs.nodeSum x s) cur.sum := by
  induction xs generalizing cur with
  | nil => rfl
  | cons x xs ih =>
    simp only [List.foldl_cons, List.map_cons]
    rw [ih]
    rfl

/-- The joined subtrees below the one that holds the proof index. -/
theorem collapse_smaller (hs : Hasher) (lvl : Int) (cur : SubTree) (sm : List SubTree)
    (S : SubTree) (larger : List SubTree) (hsm : ∀ s ∈ sm, (s.height : Int) < lvl)
    (hS : ¬ ((S.height : Int) < lvl)) :
    collapse hs lvl cur (sm ++ S :: larger)
      = (sm.foldl (fun c nxt => joinSubTrees hs nxt c) cur, S :: larger) := by
  induction sm generalizing cur with
  | nil =>
    simp only [List.nil_append, collapse, hS, if_false, List.foldl_nil]
  | cons s sm ih =>
    have h1 : (s.height : Int) < lvl := hsm s (List.mem_cons_self _ _)
    simp only [List.cons_append, collapse, h1, if_true, List.foldl_cons]
    exact ih _ (fun x hx => hsm x (List.mem_cons_of_mem _ hx))

/-- The first phase of verification climbs through the recorded siblings of
the complete subtrees and stops at the first incomplete one. -/
theorem verifyComplete_climb (hs : Hasher) (i n k : Nat) (sum : Bytes)
    (sibs extra : List Bytes)
    (hcomplete : ∀ h, k < h → h ≤ k + sibs.length → i / 2 ^ h * 2 ^ h + 2 ^ h - 1 < n)
    (hstop : n ≤ i / 2 ^ (k + sibs.length + 1) * 2 ^ (k + sibs.length + 1)
      + 2 ^ (k + sibs.length + 1) - 1) :
    verifyComplete hs i n (k + 1) (i / 2 ^ k * 2 ^ k + 2 ^ k - 1) sum (sibs ++ extra)
      = some (climb hs i k sum sibs,
          i / 2 ^ (k + sibs.length) * 2 ^ (k + sibs.length) + 2 ^ (k + sibs.length) - 1,
          extra) := by
  induction sibs generalizing k sum with
  | nil =>
    simp only [List.length_nil, Nat.add_zero] at hstop ⊢
    simp only [List.nil_append]
    unfold verifyComplete
    simp only [ge_iff_le, hstop, if_true, climb]
  | cons x xs ih =>
    have hc := hcomplete (k + 1) (by omega) (by simp only [List.length_cons]; omega)
    have hnot : ¬ (i / 2 ^ (k + 1) * 2 ^ (k + 1) + 2 ^ (k + 1) - 1 ≥ n) := by omega
    have hlen : k + (x :: xs).length = k + 1 + xs.length := by
      simp only [List.length_cons]; omega
    rw [hlen] at hstop ⊢
    have := ih (k + 1) (if i / 2 ^ k % 2 = 0 then hs.nodeSum sum x else hs.nodeSum x sum)
      (fun h h1 h2 => hcomplete h (by omega) (by rw [hlen]; exact h2)) hstop
    simp only [List.cons_append]
    unfold verifyComplete
    simp only [hnot, if_false, Nat.add_sub_cancel, first_half_iff]
    rw [this]
    rfl

end merkletree

namespace merkletree

/-- The sum folded over sized sums is sized. -/
theorem fold_sized (hs : Hasher) (hw : hs.WellSized) (xs : List Bytes) (s : Bytes)
    (h : s.length = hs.size) :
    (xs.foldl (fun s x => hs.nodeSum x s) s).length = hs.size := by
  induction xs generalizing s with
  | nil => exact h
  | cons x xs ih => exact ih _ (hw.2 _ _)

/-- The first phase of verification on a proof for a tracked leaf ends on the
sum of the subtree that holds the leaf. -/
theorem verifyComplete_tracked (hs : Hasher) (i n : Nat) (S : SubTree) (below small : Nat)
    (base : Bytes) (sibs extra : List Bytes) (hh : Holds hs i S below base sibs)
    (hd : 2 ^ (S.height + 1) ∣ below) (hsmall : small < 2 ^ S.height)
    (hn : n = small + (2 ^ S.height + below)) :
    verifyComplete hs i n 1 i (hs.leafSum base) (sibs ++ extra)
      = some (S.sum, below + 2 ^ S.height - 1, extra) := by
  have hp := Nat.two_pow_pos S.height
  have hd0 : 2 ^ S.height ∣ below := dvd_trans (pow_dvd_pow 2 (Nat.le_succ _)) hd
  have hlow := hh.lower
  have hup := hh.upper
  have hL := hh.height
  have hcomplete : ∀ h, 0 < h → h ≤ 0 + sibs.length → i / 2 ^ h * 2 ^ h + 2 ^ h - 1 < n := by
    intro h _ h2
    have := block_within h S.height below i (by omega) hd0 hup
    have := Nat.two_pow_pos h
    omega
  have hstop : n ≤ i / 2 ^ (0 + sibs.length + 1) * 2 ^ (0 + sibs.length + 1)
      + 2 ^ (0 + sibs.length + 1) - 1 := by
    rw [Nat.zero_add, ← hL, block_start (S.height + 1) below i hd hlow
      (by rw [pow_succ]; omega), pow_succ]
    omega
  have key := verifyComplete_climb hs i n 0 (hs.leafSum base) sibs extra hcomplete hstop
  have e : i / 2 ^ 0 * 2 ^ 0 + 2 ^ 0 - 1 = i := by simp
  rw [e, Nat.zero_add, Nat.zero_add, ← hL, block_start S.height below i hd0 hlow hup,
    ← hh.sum] at key
  exact key

/-- The proof built for a pushed leaf verifies against the root of the tree,
and the root and every proof entry after the base are `HashSize` bytes
long. -/
theorem prove_verifies (hs : Hasher) (hw : hs.WellSized) (i n : Nat) (t : Tree)
    (hinv : Inv hs i n t) (hi : i < n) :
    ∃ base proofs root, (t.Prove hs).2.1 = base :: proofs ∧ t.Root hs = some root
      ∧ root.length = hs.size ∧ (∀ x ∈ proofs, x.length = hs.size)
      ∧ VerifyProof hs (some root) (base :: proofs) i n = true := by
  obtain ⟨base, sibs, smaller, S, larger, hps, hst, hsm, hh⟩ := hinv.after hi
  have hasc := hinv.ascending
  rw [hst] at hasc
  obtain ⟨ha1, ha2, -⟩ := hasc.split
  have hcount := hinv.count
  rw [hst, leafCount_append] at hcount
  simp only [leafCount] at hcount
  have hr := leafCount_lt ha1 (Nat.zero_le _) hsm
  simp only [pow_zero] at hr
  have hd1 : 2 ^ (S.height + 1) ∣ leafCount larger := ha2.dvd
  have hL := hh.height
  have hsized := hinv.sizedStack
  rw [hst] at hsized
  have hS : S.sum.length = hs.size := hsized S (by simp)
  have hlarger : ∀ x ∈ larger.map SubTree.sum, x.length = hs.size := by
    intro x hx
    obtain ⟨s, hs1, rfl⟩ := List.mem_map.mp hx
    exact hsized s (by simp [hs1])
  have hsibs : ∀ x ∈ sibs, x.length = hs.size := by
    have := hinv.sizedProof
    rw [hps] at this
    exact this
  have hver := fun extra => verifyComplete_tracked hs i n S (leafCount larger)
    (leafCount smaller) base sibs extra hh hd1 (by omega) hcount.symm
  have hlvl : ((t.proofSet.length : Int) - 1) = (S.height : Int) := by
    rw [hps, hL]; simp
  have hni : ¬ (i ≥ n) := by omega
  have hlen0 : ¬ (t.proofSet.length = 0) := by rw [hps]; simp
  rcases smaller with _ | ⟨s0, sm⟩
  · simp only [List.nil_append] at hst
    have hprove : (t.Prove hs).2.1 = base :: (sibs ++ larger.map SubTree.sum) := by
      unfold Tree.Prove
      rw [hst]
      simp only [hlen0, if_false, hlvl]
      rcases larger with _ | ⟨l0, ls⟩
      · simp [collapse, hps]
      · have hl0 : ¬ ((l0.height : Int) < (S.height : Int)) := by
          have := ha2.1
          omega
        have hl1 : ¬ ((l0.height : Int) = (S.height : Int)) := by
          have := ha2.1
          omega
        simp [collapse, hl0, hl1, hps]
    have hroot : t.Root hs
        = some ((larger.map SubTree.sum).foldl (fun s x => hs.nodeSum x s) S.sum) := by
      unfold Tree.Root
      rw [hst]
      simp only [fold_join_sum]
    refine ⟨base, sibs ++ larger.map SubTree.sum, _, hprove, hroot,
      fold_sized hs hw _ _ hS, ?_, ?_⟩
    · intro x hx
      rcases List.mem_append.mp hx with h1 | h1
      · exact hsibs x h1
      · exact hlarger x h1
    · simp only [leafCount, Nat.zero_add] at hcount
      have hp := Nat.two_pow_pos S.height
      have hend : ¬ (leafCount larger + 2 ^ S.height - 1 ≠ n - 1) := by omega
      unfold VerifyProof
      simp only [hni, if_false, hver, hend, decide_True]
  · simp only [List.cons_append] at hst
    have hprove : (t.Prove hs).2.1
        = base :: (sibs ++ (sm.foldl (fun c nxt => joinSubTrees hs nxt c) s0).sum
            :: larger.map SubTree.sum) := by
      unfold Tree.Prove
      rw [hst]
      simp only [hlen0, if_false, hlvl]
      rw [collapse_smaller hs _ s0 sm S larger
        (fun s h1 => by
          have := hsm s (List.mem_cons_of_mem _ h1)
          omega) (by omega)]
      simp [hps]
    have hroot : t.Root hs
        = some ((larger.map SubTree.sum).foldl (fun s x => hs.nodeSum x s)
            (hs.nodeSum S.sum (sm.foldl (fun c nxt => joinSubTrees hs nxt c) s0).sum)) := by
      unfold Tree.Root
      rw [hst]
      simp only [List.foldl_append, List.foldl_cons]
      exact congrArg some (fold_join_sum hs larger _)
    refine ⟨base, _, _, hprove, hroot, fold_sized hs hw _ _ (hw.2 _ _), ?_, ?_⟩
    · intro x hx
      rcases List.mem_append.mp hx with h1 | h1
      · exact hsibs x h1
      · rcases List.mem_cons.mp h1 with h2 | h2
        · rw [h2, fold_join_sum]
          exact fold_sized hs hw _ _ (hsized s0 (by simp))
        · exact hlarger x h2
    · have hpos := leafCount_pos s0 sm
      have hp := Nat.two_pow_pos S.height
      have hend : leafCount larger + 2 ^ S.height - 1 ≠ n - 1 := by omega
      unfold VerifyProof
      simp only [hni, if_false, hver, hend, ne_eq, not_false_eq_true, if_true, decide_True]

end merkletree

/-! ## crypto/merkle.go: proofs and their verification -/

/-- The number of chunks read from a stream. -/
theorem readChunks_length (fuel : Nat) (data : Bytes) (hf : data.length ≤ fuel) :
    (merkletree.readChunks SegmentSize fuel data).length = (data.length + 63) / 64 := by
  induction fuel generalizing data with
  | zero =>
    have : data = [] := List.length_eq_zero.mp (by omega)
    subst this
    rfl
  | succ fuel ih =>
    unfold merkletree.readChunks
    by_cases h0 : data = []
    · subst h0; rfl
    · have hpos : 0 < data.length := List.length_pos.mpr h0
      simp only [h0, if_false, List.length_cons]
      rw [ih _ (by simp only [List.length_drop, SegmentSize]; omega)]
      simp only [List.length_drop, SegmentSize]
      omega

/-- The stream of a file is cut into `CalculateLeaves` segments. -/
theorem segments_length (data : Bytes) (hlen : data.length < 2 ^ 64) :
    (merkletree.segments SegmentSize data).length = CalculateLeaves data.length := by
  unfold merkletree.segments CalculateLeaves add64 word
  by_cases h0 : data = []
  · subst h0; rfl
  · have hpos : 0 < data.length := List.length_pos.mpr h0
    rw [if_neg h0, readChunks_length _ _ (le_refl _)]
    simp only [SegmentSize]
    have h1 : (data.length / 64 + 1) % 2 ^ 64 = data.length / 64 + 1 :=
      Nat.mod_eq_of_lt (by omega)
    rw [h1]
    split <;> omega

/-- Copying a sum of `HashSize` bytes into a `Hash` keeps it. -/
theorem copyHash_sized (size : Nat) (x : Bytes) (h : x.length = size) : copyHash size x = x := by
  unfold copyHash
  rw [← h, List.take_length, Nat.sub_self]
  simp

/-- Copying each entry of a sized list keeps the list. -/
theorem map_copyHash_sized (size : Nat) (xs : List Bytes) (h : ∀ x ∈ xs, x.length = size) :
    xs.map (copyHash size) = xs := by
  induction xs with
  | nil => rfl
  | cons x xs ih =>
    simp only [List.map_cons]
    rw [copyHash_sized size x (h x (List.mem_cons_self _ _)),
      ih (fun y hy => h y (List.mem_cons_of_mem _ hy))]

/-- C1: for a hash whose sums are `HashSize` bytes long, every byte string
`data` (of a length that fits `uint64`) and every
`proofIndex < CalculateLeaves(len(data))`, `BuildReaderProof` returns a pair
`(base, hashSet)` without error, `ReaderMerkleRoot` returns a root, and
`VerifySegment(base, hashSet, CalculateLeaves(len(data)), proofIndex, root)`
is true. -/
theorem proof_round_trip (hs : Hasher) (hw : hs.WellSized) (data : Bytes)
    (hlen : data.length < 2 ^ 64) (proofIndex : Nat)
    (hi : proofIndex < CalculateLeaves data.length) :
    ∃ base hashSet root,
      BuildReaderProof hs (Reader.ofBytes data) proofIndex = some (.ok (base, hashSet))
        ∧ ReaderMerkleRoot hs (Reader.ofBytes data) = .ok root
        ∧ VerifySegment hs base hashSet (CalculateLeaves data.length) proofIndex root
            = true := by
  have hseg := segments_length data hlen
  have hinv := merkletree.Inv.pushAll hs hw proofIndex 0 _
    (merkletree.segments SegmentSize data) (merkletree.Inv.new hs proofIndex)
  rw [Nat.zero_add, hseg] at hinv
  obtain ⟨base, proofs, root, hp, hr, hrs, hps, hv⟩ :=
    merkletree.prove_verifies hs hw proofIndex _ _ hinv hi
  have hroot2 : ((merkletree.segments SegmentSize data).foldl (merkletree.Tree.Push hs)
      merkletree.New).Root hs = some root := by
    rw [← hr]
    unfold merkletree.Tree.Root
    rw [merkletree.pushAll_head hs merkletree.New (merkletree.New.SetIndex proofIndex) _ rfl]
  refine ⟨base, proofs, root, ?_, ?_, ?_⟩
  · unfold BuildReaderProof merkletree.BuildReaderProof merkletree.Tree.ReadAll
    simp only [Reader.ofBytes, hp, List.length_cons]
    rw [if_neg (by omega)]
    simp only [map_copyHash_sized _ _ hps]
  · unfold ReaderMerkleRoot merkletree.ReaderRoot merkletree.Tree.ReadAll
    simp only [Reader.ofBytes, hroot2, Option.getD_some, copyHash_sized _ _ hrs]
  · unfold VerifySegment
    exact hv

/-- Witness of C1: segment 2 of a file of 130 bytes. -/
theorem proof_round_trip_witness :
    tagHasher.WellSized ∧ sampleData.length < 2 ^ 64
      ∧ 2 < CalculateLeaves sampleData.length
      ∧ ∃ base hashSet root,
        BuildReaderProof tagHasher (Reader.ofBytes sampleData) 2 = some (.ok (base, hashSet))
          ∧ ReaderMerkleRoot tagHasher (Reader.ofBytes sampleData) = .ok root
          ∧ VerifySegment tagHasher base hashSet (CalculateLeaves sampleData.length) 2 root
              = true :=
  ⟨⟨fun _ => rfl, fun _ _ => rfl⟩, by simp [sampleData],
    by simp [sampleData, CalculateLeaves, SegmentSize, add64, word],
    proof_round_trip tagHasher ⟨fun _ => rfl, fun _ _ => rfl⟩ sampleData
      (by simp [sampleData]) 2
      (by simp [sampleData, CalculateLeaves, SegmentSize, add64, word])⟩

/-! ## NegotiateContract from the deadline check on -/

/-- From the deadline check on, `NegotiateContract` fails on a late file,
fails after recording the file when the transaction pool rejects the
transaction, and otherwise records the file and schedules the proof. -/
theorem NegotiateContract_verified (env : Env) (s : World) (r : Considered)
    (t : Transaction) (c : FileContract) (hv : Verified env s r t c) :
    NegotiateContract env s
      = some (
          if env.Height ≥ sub64 c.Start 2 then
            finish (destination env s)
              (some "file not uploaded in time, refusing to go forward with contract")
              (verifiedWorld env s r c)
          else
            match env.AcceptTransaction t with
            | some e =>
              finish (destination env s) (some e)
                { verifiedWorld env s r c with
                  host := recordFile s.host c, submitted := s.submitted ++ [t] }
            | none =>
              (none,
                { verifiedWorld env s r c with
                  host := scheduleProof env (recordFile s.host c) t c
                  submitted := s.submitted ++ [t] })) := by
  obtain ⟨⟨t0, hread, hcons⟩, hret, hacc, hcreate, ⟨rest, hc⟩, hsize, hdel, hseek, hroot⟩ := hv
  have hh : r.host = s.host := considerContract_host _ _ _ _ hcons
  have hcp : copyN env.delivered env.connErr (c.FileSize : Int)
      = (env.delivered.take c.FileSize, none) := by
    unfold copyN
    rw [if_pos (by omega)]
    simp
  unfold NegotiateContract
  rw [hread]
  simp only [hcons, hret, hacc, hcreate, hc, toInt64_of_lt _ hsize, hh, hcp, hseek, hroot,
    ne_eq, not_true_eq_false, if_false]
  by_cases hd : env.Height ≥ sub64 c.Start 2
  · simp only [hd, if_true]
    rfl
  · simp only [hd, if_false]
    rcases env.AcceptTransaction t with _ | e
    · rfl
    · rfl

/-- The scenario of spec §8 reaches the deadline check, whatever the chain
height and the answer of the transaction pool. -/
theorem scenario_verified (height : Nat) (accept : Option String) :
    Verified (scenarioAt height accept) scenarioWorld scenarioConsidered
      { FileContracts := [scenarioContract], other := 1 } scenarioContract where
  considered := ⟨scenarioTx, rfl, rfl⟩
  signed := rfl
  accepted := rfl
  created := rfl
  contract := ⟨[], rfl⟩
  size := by decide
  delivered := by
    show 1024 ≤ (List.replicate 1024 (0 : Byte)).length
    rw [List.length_replicate]
  seek := rfl
  root := rfl

/-- The host after `NegotiateContract` is the host before, or the host with
the file recorded, or the host with the file recorded and the proof
scheduled. -/
theorem NegotiateContract_host (env : Env) (s : World) (err : Option String) (s1 : World)
    (h : NegotiateContract env s = some (err, s1)) :
    s1.host = s.host ∨ (∃ c, s1.host = recordFile s.host c)
      ∨ (∃ t c, s1.host = scheduleProof env (recordFile s.host c) t c) := by
  unfold NegotiateContract at h
  rcases hread : env.readObject with e | t0
  · rw [hread] at h
    simp only [Option.some.injEq, Prod.mk.injEq] at h
    left; rw [← h.2]
  · rw [hread] at h
    simp only at h
    rcases hcons : considerContract env.wallet s.host t0 with _ | r
    · rw [hcons] at h; simp at h
    · have hh : r.host = s.host := considerContract_host _ _ _ _ hcons
      rw [hcons] at h
      simp only [hh] at h
      rcases hret : r.ret with e | t
      · rw [hret] at h
        simp only [Option.some.injEq, Prod.mk.injEq] at h
        left; rw [← h.2]
      · rw [hret] at h
        simp only at h
        rcases hacc : env.writeObject env.AcceptContractResponse with _ | e
        · rw [hacc] at h
          simp only at h
          rcases hcr : env.createErr with _ | e
          · rw [hcr] at h
            simp only at h
            rcases hc : t.FileContracts with _ | ⟨c, rest⟩
            · rw [hc] at h; simp at h
            · rw [hc] at h
              simp only at h
              rcases hcp : (copyN env.delivered env.connErr (toInt64 c.FileSize)).2 with _ | e
              · rw [hcp] at h
                simp only at h
                rcases hsk : env.seekErr with _ | e
                · rw [hsk] at h
                  simp only at h
                  rcases hrt : env.ReaderMerkleRoot
                      (copyN env.delivered env.connErr (toInt64 c.FileSize)).1
                      (env.CalculateSegments c.FileSize) with e | m
                  · rw [hrt] at h
                    simp only [finish, Option.some.injEq, Prod.mk.injEq] at h
                    left; rw [← h.2]
                  · rw [hrt] at h
                    simp only at h
                    by_cases hm : m ≠ c.FileMerkleRoot
                    · rw [if_pos hm] at h
                      simp only [finish, Option.some.injEq, Prod.mk.injEq] at h
                      left; rw [← h.2]
                    · rw [if_neg hm] at h
                      by_cases hd : env.Height ≥ sub64 c.Start 2
                      · rw [if_pos hd] at h
                        simp only [finish, Option.some.injEq, Prod.mk.injEq] at h
                        left; rw [← h.2]
                      · rw [if_neg hd] at h
                        rcases hat : env.AcceptTransaction t with _ | e
                        · rw [hat] at h
                          simp only [finish, Option.some.injEq, Prod.mk.injEq] at h
                          right; right
                          refine ⟨t, c, ?_⟩
                          rw [← h.2]
                          rfl
                        · rw [hat] at h
                          simp only [finish, Option.some.injEq, Prod.mk.injEq] at h
                          right; left
                          refine ⟨c, ?_⟩
                          rw [← h.2]
                          rfl
                · rw [hsk] at h
                  simp only [finish, Option.some.injEq, Prod.mk.injEq] at h
                  left; rw [← h.2]
              · rw [hcp] at h
                simp only [finish, Option.some.injEq, Prod.mk.injEq] at h
                left; rw [← h.2]
          · rw [hcr] at h
            simp only [Option.some.injEq, Prod.mk.injEq] at h
            left; rw [← h.2]
        · rw [hacc] at h
          simp only [Option.some.injEq, Prod.mk.injEq] at h
          left; rw [← h.2]

/-! ## Outcomes of NegotiateContract -/

/-- C11 (code at the failing input): in the scenario of spec §8 with the
transaction pool rejecting the signed transaction, `NegotiateContract`
returns the error and removes the destination file `host/0`, yet the file
index keeps the entry of the contract's Merkle root for the removed file and
`Index` has advanced from 0 to 1; only the proof schedule is as before. -/
theorem rejected_submission_keeps_index_entry :
    scenarioWorld.host.Files scenarioContract.FileMerkleRoot = none
      ∧ scenarioWorld.host.Index = 0
      ∧ (NegotiateContract rejectEnv scenarioWorld).map
          (fun r => (r.1, r.2.fs "host/0", r.2.host.Files scenarioContract.FileMerkleRoot,
            r.2.host.Index, (r.2.host.ForwardContracts 11).length))
        = some (some "rejected", none, some "0", 1, 0) := by
  refine ⟨rfl, rfl, ?_⟩
  rw [show rejectEnv = scenarioAt 0 (some "rejected") from rfl,
    NegotiateContract_verified _ _ _ _ _ (scenario_verified 0 (some "rejected"))]
  decide

/-- C12 (counterexample): for `earlyContract`, which starts at height 1, the
chain height 0 is at least `start - 2 = -1`, yet `NegotiateContract` returns
no error and submits the transaction: the code compares with
`start - 2` wrapped to `2 ^ 64 - 1`. -/
theorem deadline_check_wraps :
    ((earlyEnv.Height : Int) ≥ (earlyContract.Start : Int) - 2)
      ∧ sub64 earlyContract.Start 2 = 2 ^ 64 - 1
      ∧ (NegotiateContract earlyEnv scenarioWorld).map
          (fun r => (r.1, r.2.submitted.length, (r.2.host.ForwardContracts 7).length))
        = some (none, 1, 1) := by
  refine ⟨by decide, by decide, ?_⟩
  have hv : Verified earlyEnv scenarioWorld
      { ret := .ok { FileContracts := [earlyContract], other := 1 }
        calls := [.register earlyTx, .fund "id" 101376, .sign "id" true]
        host := scenarioHost }
      { FileContracts := [earlyContract], other := 1 } earlyContract :=
    { considered := ⟨earlyTx, rfl, rfl⟩
      signed := rfl
      accepted := rfl
      created := rfl
      contract := ⟨[], rfl⟩
      size := by decide
      delivered := by
        show 1024 ≤ (List.replicate 1024 (0 : Byte)).length
        rw [List.length_replicate]
      seek := rfl
      root := rfl }
  rw [NegotiateContract_verified _ _ _ _ _ hv]
  decide

/-- C12 (amended): for a contract with `2 ≤ start < 2 ^ 64`, a negotiation
that has passed transfer and root verification at a chain height of at least
`start - 2` fails with "file not uploaded in time", removes the destination,
submits no transaction and leaves the host (file index, proof schedule) as
it was. -/
theorem late_file_is_refused (env : Env) (s : World) (r : Considered) (t : Transaction)
    (c : FileContract) (hv : Verified env s r t c) (h2 : 2 ≤ c.Start)
    (hw : c.Start < 2 ^ 64) (hlate : (env.Height : Int) ≥ (c.Start : Int) - 2) :
    ∃ s1, NegotiateContract env s
        = some (some "file not uploaded in time, refusing to go forward with contract", s1)
      ∧ s1.fs (destination env s) = none
      ∧ s1.submitted = s.submitted ∧ s1.host = s.host := by
  have hd : env.Height ≥ sub64 c.Start 2 := by
    rw [sub64_of_le _ _ h2 hw]
    omega
  rw [NegotiateContract_verified env s r t c hv, if_pos hd]
  exact ⟨_, rfl, by simp [finish], rfl, rfl⟩

/-- Witness of C12 (amended): the scenario of spec §8 (start 5) at chain
height 3. -/
theorem late_file_is_refused_witness :
    ∃ s1, NegotiateContract (scenarioAt 3 none) scenarioWorld
        = some (some "file not uploaded in time, refusing to go forward with contract", s1)
      ∧ s1.fs (destination (scenarioAt 3 none) scenarioWorld) = none
      ∧ s1.submitted = scenarioWorld.submitted ∧ s1.host = scenarioWorld.host :=
  late_file_is_refused (scenarioAt 3 none) scenarioWorld scenarioConsidered _ scenarioContract
    (scenario_verified 3 none) (by decide) (by decide) (by decide)

/-- C13: when validation, funding, transfer, root verification, the deadline
check and the submission all succeed, `NegotiateContract` returns no error;
the proof schedule is the previous one with `ContractEntry{id, contract}`
appended to the entries at `start + StorageProofReorgDepth` (a `uint64` sum,
the exact one when below `2 ^ 64`); the file index is the previous one with
the contract's Merkle root mapped to the index under which the delivered
bytes are stored, and `Index` is one higher. -/
theorem commit_schedules_one_proof (env : Env) (s : World) (r : Considered)
    (t : Transaction) (c : FileContract) (hv : Verified env s r t c)
    (hd : env.Height < sub64 c.Start 2) (ha : env.AcceptTransaction t = none) :
    ∃ s1, NegotiateContract env s = some (none, s1)
      ∧ s1.host.ForwardContracts
          = Function.update s.host.ForwardContracts (add64 c.Start env.StorageProofReorgDepth)
              (s.host.ForwardContracts (add64 c.Start env.StorageProofReorgDepth)
                ++ [{ ID := env.FileContractID t 0, Contract := c }])
      ∧ (c.Start + env.StorageProofReorgDepth < 2 ^ 64 →
          add64 c.Start env.StorageProofReorgDepth = c.Start + env.StorageProofReorgDepth)
      ∧ s1.host.Files
          = Function.update s.host.Files c.FileMerkleRoot (some (toString s.host.Index))
      ∧ s1.host.Index = s.host.Index + 1
      ∧ s1.fs (env.hostDir ++ toString s.host.Index) = some (env.delivered.take c.FileSize)
      ∧ s1.submitted = s.submitted ++ [t] := by
  have hnd : ¬ (env.Height ≥ sub64 c.Start 2) := by omega
  rw [NegotiateContract_verified env s r t c hv, if_neg hnd]
  simp only [ha]
  refine ⟨_, rfl, rfl, ?_, rfl, rfl, ?_, rfl⟩
  · intro hlt
    unfold add64 word
    exact Nat.mod_eq_of_lt hlt
  · simp [verifiedWorld, destination]

/-- Witness of C13: the end-to-end scenario of spec §8 (file size 1024,
start 5, end 100, fund `2 * 1024 * 95`, price 1, burn 1, height 0, reorg
depth 6). -/
theorem commit_schedules_one_proof_witness :
    ∃ s1, NegotiateContract (scenarioAt 0 none) scenarioWorld = some (none, s1)
      ∧ s1.host.ForwardContracts
          = Function.update scenarioWorld.host.ForwardContracts
              (add64 scenarioContract.Start (scenarioAt 0 none).StorageProofReorgDepth)
              (scenarioWorld.host.ForwardContracts
                  (add64 scenarioContract.Start (scenarioAt 0 none).StorageProofReorgDepth)
                ++ [{ ID := (scenarioAt 0 none).FileContractID
                        { FileContracts := [scenarioContract], other := 1 } 0,
                      Contract := scenarioContract }])
      ∧ (scenarioContract.Start + (scenarioAt 0 none).StorageProofReorgDepth < 2 ^ 64 →
          add64 scenarioContract.Start (scenarioAt 0 none).StorageProofReorgDepth
            = scenarioContract.Start + (scenarioAt 0 none).StorageProofReorgDepth)
      ∧ s1.host.Files
          = Function.update scenarioWorld.host.Files scenarioContract.FileMerkleRoot
              (some (toString scenarioWorld.host.Index))
      ∧ s1.host.Index = scenarioWorld.host.Index + 1
      ∧ s1.fs ((scenarioAt 0 none).hostDir ++ toString scenarioWorld.host.Index)
          = some ((scenarioAt 0 none).delivered.take scenarioContract.FileSize)
      ∧ s1.submitted = scenarioWorld.submitted
          ++ [{ FileContracts := [scenarioContract], other := 1 }] :=
  commit_schedules_one_proof (scenarioAt 0 none) scenarioWorld scenarioConsidered _
    scenarioContract (scenario_verified 0 none) (by decide) rfl

/-- C14 (code at the failing input): when the wallet refuses to fund the
penalty with the error `e`, the one object `NegotiateContract` writes to the
peer is `e` itself, so two runs that differ only in that error write
different bytes. -/
theorem funding_error_is_written_to_peer (e : String) :
    (NegotiateContract (brokeEnv e) scenarioWorld).map (fun r => r.2.written) = some [e] := by
  rfl

/-- C15 (counterexample): the end-to-end scenario of spec §8 is scheduled
(no error, one proof entry at height 11) and the remaining capacity is
1000000 after as before, not 1000000 - 1024. -/
theorem capacity_not_decremented :
    scenarioWorld.host.spaceRemaining = 1000000
      ∧ (NegotiateContract (scenarioAt 0 none) scenarioWorld).map
          (fun r => (r.1, (r.2.host.ForwardContracts 11).length, r.2.host.spaceRemaining))
        = some (none, 1, 1000000)
      ∧ scenarioWorld.host.spaceRemaining - (scenarioContract.FileSize : Int) ≠ 1000000 := by
  refine ⟨rfl, ?_, by decide⟩
  rw [NegotiateContract_verified _ _ _ _ _ (scenario_verified 0 none)]
  decide

/-- C15 (amended): after every negotiation that returns, scheduled or
failed, the remaining capacity of the host equals its value before. -/
theorem capacity_unchanged (env : Env) (s : World) (err : Option String) (s1 : World)
    (h : NegotiateContract env s = some (err, s1)) :
    s1.host.spaceRemaining = s.host.spaceRemaining := by
  rcases NegotiateContract_host env s err s1 h with h1 | ⟨c, h1⟩ | ⟨t, c, h1⟩
  · rw [h1]
  · rw [h1]; rfl
  · rw [h1]; rfl

/-- Witness of C15 (amended): the end-to-end scenario of spec §8, which ends
scheduled. -/
theorem capacity_unchanged_witness :
    ({ verifiedWorld (scenarioAt 0 none) scenarioWorld scenarioConsidered scenarioContract with
        host := scheduleProof (scenarioAt 0 none) (recordFile scenarioWorld.host scenarioContract)
          { FileContracts := [scenarioContract], other := 1 } scenarioContract
        submitted := scenarioWorld.submitted
          ++ [{ FileContracts := [scenarioContract], other := 1 }] } : World).host.spaceRemaining
      = scenarioWorld.host.spaceRemaining :=
  capacity_unchanged (scenarioAt 0 none) scenarioWorld none _
    (by rw [NegotiateContract_verified _ _ _ _ _ (scenario_verified 0 none)]; rfl)

/-! ## Funding of the penalty -/

/-- C19 (counterexample): `burnHost` (burn `2 ^ 32`, price 0) accepts
`wrapContract` (file size `2 ^ 32`, start 5, end 100) and `considerContract`
asks the wallet to fund 0, while the exact product
`burn * filesize * (end - start)` is `2 ^ 64 * 95`. -/
theorem penalty_wraps :
    validate burnHost wrapTx = some none
      ∧ (considerContract scenarioWallet burnHost wrapTx).map (fun r => r.calls)
          = some [.register wrapTx, .fund "id" 0, .sign "id" true]
      ∧ (burnHost.announcement.Burn : Int) * (wrapContract.FileSize : Int)
          * ((wrapContract.End : Int) - (wrapContract.Start : Int)) ≠ 0 := by
  refine ⟨rfl, rfl, by decide⟩

/-- C19 (amended): for a transaction that passes every check,
`considerContract` registers it with the wallet, asks the wallet to fund the
penalty `burn * filesize * (end - start)` as the code computes it, wrapped to
64 bits (the exact product when `start ≤ end` and the product fits 64 bits),
and then signs the whole transaction; an error of the registration or of the
funding is returned unchanged and `SignTransaction` is not called. -/
theorem considerContract_funds_penalty (w : Wallet) (h : Host) (t : Transaction)
    (hv : validate h t = some none) :
    ∃ c penalty, t.FileContracts = [c]
      ∧ penalty = (h.announcement.Burn * c.FileSize * sub64 c.End c.Start) % 2 ^ 64
      ∧ (c.Start ≤ c.End → c.End < 2 ^ 64 →
          h.announcement.Burn * c.FileSize * (c.End - c.Start) < 2 ^ 64 →
          penalty = h.announcement.Burn * c.FileSize * (c.End - c.Start))
      ∧ considerContract w h t
          = some (
              match w.RegisterTransaction t with
              | .error e => { ret := .error e, calls := [.register t], host := h }
              | .ok id =>
                match w.FundTransaction id penalty with
                | some e =>
                  { ret := .error e, calls := [.register t, .fund id penalty], host := h }
                | none =>
                  { ret := w.SignTransaction id true,
                    calls := [.register t, .fund id penalty, .sign id true], host := h }) := by
  obtain ⟨c, hc, -⟩ := (validate_pass_iff h t).mp hv
  refine ⟨c, _, hc, rfl, ?_, ?_⟩
  · intro hle he hlt
    rw [sub64_of_le _ _ hle he]
    exact Nat.mod_eq_of_lt hlt
  · unfold considerContract
    rw [hv]
    simp only [hc, mul64_mul64, word]
    rcases w.RegisterTransaction t with e | id
    · rfl
    · simp only
      rcases w.FundTransaction id
          ((h.announcement.Burn * c.FileSize * sub64 c.End c.Start) % 2 ^ 64) with _ | e
      · rfl
      · rfl

/-- Witness of C19 (amended) on the scenario of spec §8. -/
theorem considerContract_funds_penalty_witness :
    ∃ c penalty, scenarioTx.FileContracts = [c]
      ∧ penalty = (scenarioHost.announcement.Burn * c.FileSize * sub64 c.End c.Start) % 2 ^ 64
      ∧ (c.Start ≤ c.End → c.End < 2 ^ 64 →
          scenarioHost.announcement.Burn * c.FileSize * (c.End - c.Start) < 2 ^ 64 →
          penalty = scenarioHost.announcement.Burn * c.FileSize * (c.End - c.Start))
      ∧ considerContract scenarioWallet scenarioHost scenarioTx
          = some (
              match scenarioWallet.RegisterTransaction scenarioTx with
              | .error e => { ret := .error e, calls := [.register scenarioTx],
                              host := scenarioHost }
              | .ok id =>
                match scenarioWallet.FundTransaction id penalty with
                | some e =>
                  { ret := .error e, calls := [.register scenarioTx, .fund id penalty],
                    host := scenarioHost }
                | none =>
                  { ret := scenarioWallet.SignTransaction id true,
                    calls := [.register scenarioTx, .fund id penalty, .sign id true],
                    host := scenarioHost }) :=
  considerContract_funds_penalty scenarioWallet scenarioHost scenarioTx rfl

/-! ## crypto/merkle.go: the portable proof format -/

/-- `BuildReaderProof` converts the proof set of the library with
`hashSetOfProofSet`. -/
theorem BuildReaderProof_converts (hs : Hasher) (r : Reader) (proofIndex : Nat)
    (root : Option Bytes) (proofSet : List Bytes) (n : Nat)
    (h : merkletree.BuildReaderProof r hs SegmentSize proofIndex = .ok (root, proofSet, n)) :
    BuildReaderProof hs r proofIndex = (hashSetOfProofSet hs.size proofSet).map .ok := by
  unfold BuildReaderProof
  rw [h]
  cases proofSet <;> rfl

/-- C20: for a proof set of the library whose entries after the first are
`HashSize` bytes long, the conversion of `BuildReaderProof` followed by the
conversion of `VerifySegment` gives back the proof set: the hash set has one
entry less, entry `i` of the hash set is entry `i + 1` of the proof set, and
`VerifySegment` hands the original proof set to the library. -/
theorem proof_format_round_trip (size : Nat) (base : Bytes) (rest : List Bytes)
    (hsized : ∀ x ∈ rest, x.length = size) :
    ∃ hashSet, hashSetOfProofSet size (base :: rest) = some (base, hashSet)
      ∧ proofSetOfHashSet base hashSet = base :: rest
      ∧ hashSet.length = (base :: rest).length - 1
      ∧ (∀ i, hashSet[i]? = (base :: rest)[i + 1]?)
      ∧ (∀ hs r proofIndex root n, hs.size = size →
          merkletree.BuildReaderProof r hs SegmentSize proofIndex
            = .ok (root, base :: rest, n) →
          BuildReaderProof hs r proofIndex = some (.ok (base, hashSet)))
      ∧ (∀ hs numSegments proofIndex root,
          VerifySegment hs base hashSet numSegments proofIndex root
            = merkletree.VerifyProof hs (some root) (base :: rest) proofIndex numSegments) := by
  refine ⟨rest, ?_, rfl, by simp, fun i => by simp, ?_, fun _ _ _ _ => rfl⟩
  · show some (base, rest.map (copyHash size)) = some (base, rest)
    rw [map_copyHash_sized size rest hsized]
  · intro hs r proofIndex root n hsz hb
    rw [BuildReaderProof_converts hs r proofIndex root _ n hb, hsz]
    show Option.map Except.ok (some (base, rest.map (copyHash size))) = _
    rw [map_copyHash_sized size rest hsized]
    rfl

/-- Witness of C20: a proof set with a three-byte base and two entries of
two bytes. -/
theorem proof_format_round_trip_witness :
    ∃ hashSet, hashSetOfProofSet 2 ([7, 8, 9] :: [[1, 2], [3, 4]]) = some ([7, 8, 9], hashSet)
      ∧ proofSetOfHashSet [7, 8, 9] hashSet = [7, 8, 9] :: [[1, 2], [3, 4]]
      ∧ hashSet.length = ([7, 8, 9] :: [[1, 2], [3, 4]] : List Bytes).length - 1
      ∧ (∀ i, hashSet[i]? = ([7, 8, 9] :: [[1, 2], [3, 4]] : List Bytes)[i + 1]?)
      ∧ (∀ hs r proofIndex root n, hs.size = 2 →
          merkletree.BuildReaderProof r hs SegmentSize proofIndex
            = .ok (root, [7, 8, 9] :: [[1, 2], [3, 4]], n) →
          BuildReaderProof hs r proofIndex = some (.ok ([7, 8, 9], hashSet)))
      ∧ (∀ hs numSegments proofIndex root,
          VerifySegment hs [7, 8, 9] hashSet numSegments proofIndex root
            = merkletree.VerifyProof hs (some root) ([7, 8, 9] :: [[1, 2], [3, 4]])
                proofIndex numSegments) :=
  proof_format_round_trip 2 [7, 8, 9] [[1, 2], [3, 4]] (by decide)

/-! ## crypto/merkle.go: roots and segments -/

/-- C16: for a hash whose sums are `HashSize` bytes long, with `L` the leaf
hash and `N` the node hash, `MerkleRoot` of 5 leaves is
`N(N(N(L0,L1),N(L2,L3)), L4)`, of 6 leaves `N(N(N(L0,L1),N(L2,L3)), N(L4,L5))`
and of 7 leaves `N(N(N(L0,L1),N(L2,L3)), N(N(L4,L5), L6))`: the orphan
subtree enters the root as it is, without a hash of its own. -/
theorem MerkleRoot_carry_forward (hs : Hasher) (hw : hs.WellSized)
    (l0 l1 l2 l3 l4 l5 l6 : Bytes) :
    MerkleRoot hs [l0, l1, l2, l3, l4]
        = hs.nodeSum
            (hs.nodeSum (hs.nodeSum (hs.leafSum l0) (hs.leafSum l1))
              (hs.nodeSum (hs.leafSum l2) (hs.leafSum l3)))
            (hs.leafSum l4)
      ∧ MerkleRoot hs [l0, l1, l2, l3, l4, l5]
        = hs.nodeSum
            (hs.nodeSum (hs.nodeSum (hs.leafSum l0) (hs.leafSum l1))
              (hs.nodeSum (hs.leafSum l2) (hs.leafSum l3)))
            (hs.nodeSum (hs.leafSum l4) (hs.leafSum l5))
      ∧ MerkleRoot hs [l0, l1, l2, l3, l4, l5, l6]
        = hs.nodeSum
            (hs.nodeSum (hs.nodeSum (hs.leafSum l0) (hs.leafSum l1))
              (hs.nodeSum (hs.leafSum l2) (hs.leafSum l3)))
            (hs.nodeSum (hs.nodeSum (hs.leafSum l4) (hs.leafSum l5)) (hs.leafSum l6)) := by
  refine ⟨?_, ?_, ?_⟩
  · exact copyHash_sized _ _ (hw.2 _ _)
  · exact copyHash_sized _ _ (hw.2 _ _)
  · exact copyHash_sized _ _ (hw.2 _ _)

/-- Witness of C16 with the two-byte hasher. -/
theorem MerkleRoot_carry_forward_witness :
    tagHasher.WellSized
      ∧ MerkleRoot tagHasher [[0], [1], [2], [3], [4]]
        = tagHasher.nodeSum
            (tagHasher.nodeSum (tagHasher.nodeSum (tagHasher.leafSum [0]) (tagHasher.leafSum [1]))
              (tagHasher.nodeSum (tagHasher.leafSum [2]) (tagHasher.leafSum [3])))
            (tagHasher.leafSum [4]) :=
  ⟨⟨fun _ => rfl, fun _ _ => rfl⟩,
    (MerkleRoot_carry_forward tagHasher ⟨fun _ => rfl, fun _ _ => rfl⟩
      [0] [1] [2] [3] [4] [5] [6]).1⟩

/-- The leaf read at position `i` of a stream. -/
theorem readChunks_getElem (fuel : Nat) (data : Bytes) (i : Nat) (hf : data.length ≤ fuel)
    (hi : i < (data.length + 63) / 64) :
    (merkletree.readChunks SegmentSize fuel data)[i]?
      = some ((data.drop (SegmentSize * i)).take SegmentSize) := by
  induction fuel generalizing data i with
  | zero => omega
  | succ fuel ih =>
    unfold merkletree.readChunks
    have h0 : data ≠ [] := by
      intro h
      subst h
      simp at hi
    have hpos : 0 < data.length := List.length_pos.mpr h0
    rw [if_neg h0]
    cases i with
    | zero => simp
    | succ i =>
      simp only [List.getElem?_cons_succ]
      rw [ih (data.drop SegmentSize) i (by simp only [List.length_drop, SegmentSize]; omega)
        (by simp only [List.length_drop, SegmentSize]; omega), List.drop_drop]
      have : SegmentSize + SegmentSize * i = SegmentSize * (i + 1) := by ring
      rw [this]

/-- Each push advances the index of the next leaf by one. -/
theorem pushAll_currentIndex (hs : Hasher) (t : merkletree.Tree) (leaves : List Bytes) :
    (leaves.foldl (merkletree.Tree.Push hs) t).currentIndex = t.currentIndex + leaves.length := by
  induction leaves generalizing t with
  | nil => rfl
  | cons l rest ih =>
    simp only [List.foldl_cons, List.length_cons]
    rw [ih]
    simp only [merkletree.Tree.Push]
    omega

/-- C18: for every byte string `data` (of a length that fits `uint64`) read
to a clean end of stream, `ReadSegments` returns no error and pushes
`CalculateLeaves(len(data))` leaves, leaf `i` being the bytes of `data` from
`64 * i` up to `64 * (i + 1)` or the end of the data, a short last leaf left as
it is; an empty stream pushes exactly one empty leaf; a read error other than
the end of the stream is returned. -/
theorem ReadSegments_pushes_segments (hs : Hasher) (t : merkletree.Tree) (data : Bytes)
    (hlen : data.length < 2 ^ 64) :
    ∃ leaves, MerkleTree.ReadSegments hs t (Reader.ofBytes data)
        = .ok (leaves.foldl (merkletree.Tree.Push hs) t)
      ∧ leaves.length = CalculateLeaves data.length
      ∧ (leaves.foldl (merkletree.Tree.Push hs) t).currentIndex
          = t.currentIndex + CalculateLeaves data.length
      ∧ (∀ i, i < CalculateLeaves data.length →
          leaves[i]? = some ((data.drop (SegmentSize * i)).take SegmentSize))
      ∧ (data = [] → leaves = [[]])
      ∧ (∀ e, MerkleTree.ReadSegments hs t { data := data, err := some e } = .error e) := by
  have hseg := segments_length data hlen
  refine ⟨merkletree.segments SegmentSize data, rfl, hseg, ?_, ?_, ?_, fun e => rfl⟩
  · rw [pushAll_currentIndex, hseg]
  · intro i hi
    rw [← hseg] at hi
    unfold merkletree.segments at hi ⊢
    by_cases h0 : data = []
    · subst h0
      simp only [if_true, List.length_singleton] at hi
      have : i = 0 := by omega
      subst this
      rfl
    · rw [if_neg h0] at hi ⊢
      rw [readChunks_length _ _ (le_refl _)] at hi
      exact readChunks_getElem _ _ _ (le_refl _) hi
  · intro h0
    subst h0
    rfl

/-- Witness of C18: a file of 130 bytes. -/
theorem ReadSegments_pushes_segments_witness :
    sampleData.length < 2 ^ 64
      ∧ ∃ leaves, MerkleTree.ReadSegments tagHasher merkletree.New (Reader.ofBytes sampleData)
          = .ok (leaves.foldl (merkletree.Tree.Push tagHasher) merkletree.New)
        ∧ leaves.length = CalculateLeaves sampleData.length
        ∧ (leaves.foldl (merkletree.Tree.Push tagHasher) merkletree.New).currentIndex
            = merkletree.New.currentIndex + CalculateLeaves sampleData.length
        ∧ (∀ i, i < CalculateLeaves sampleData.length →
            leaves[i]? = some ((sampleData.drop (SegmentSize * i)).take SegmentSize))
        ∧ (sampleData = [] → leaves = [[]])
        ∧ (∀ e, MerkleTree.ReadSegments tagHasher merkletree.New
              { data := sampleData, err := some e } = .error e) :=
  ⟨by simp [sampleData],
    ReadSegments_pushes_segments tagHasher merkletree.New sampleData (by simp [sampleData])⟩

/-! ## Merkle tree: equal roots -/

namespace merkletree

/-- Two subtrees of one height and one sum are the same. -/
theorem SubTree.eq_of (a b : SubTree) (hh : a.height = b.height) (hs1 : a.sum = b.sum) :
    a = b := by
  cases a; cases b
  simp only at hh hs1
  subst hh hs1
  rfl

/-- A collision stays one when pairs are put in front. -/
theorem NodeCollision.cons (hs : Hasher) (p q : Bytes × Bytes) (ps qs : List (Bytes × Bytes))
    (h : NodeCollision hs ps qs) : NodeCollision hs (p :: ps) (q :: qs) := by
  obtain ⟨x, hx, y, hy, hne, he⟩ := h
  exact ⟨x, List.mem_cons_of_mem _ hx, y, List.mem_cons_of_mem _ hy, hne, he⟩

/-- A collision stays one when pairs are appended. -/
theorem NodeCollision.left (hs : Hasher) (ps qs xs ys : List (Bytes × Bytes))
    (h : NodeCollision hs ps qs) : NodeCollision hs (ps ++ xs) (qs ++ ys) := by
  obtain ⟨x, hx, y, hy, hne, he⟩ := h
  exact ⟨x, List.mem_append_left _ hx, y, List.mem_append_left _ hy, hne, he⟩

/-- A collision stays one when pairs are put in front. -/
theorem NodeCollision.right (hs : Hasher) (ps qs xs ys : List (Bytes × Bytes))
    (h : NodeCollision hs ps qs) : NodeCollision hs (xs ++ ps) (ys ++ qs) := by
  obtain ⟨x, hx, y, hy, hne, he⟩ := h
  exact ⟨x, List.mem_append_right _ hx, y, List.mem_append_right _ hy, hne, he⟩

/-- Two joins with one result have the same operands, or collide. -/
theorem join_agree (hs : Hasher) (n1 c1 n2 c2 : SubTree) (hn : n1.height = n2.height)
    (hc : c1.height = c2.height)
    (h : (joinSubTrees hs n1 c1).sum = (joinSubTrees hs n2 c2).sum) :
    (n1 = n2 ∧ c1 = c2)
      ∨ ((n1.sum, c1.sum) ≠ (n2.sum, c2.sum)
        ∧ hs.nodeSum n1.sum c1.sum = hs.nodeSum n2.sum c2.sum) := by
  by_cases he : (n1.sum, c1.sum) = (n2.sum, c2.sum)
  · left
    simp only [Prod.mk.injEq] at he
    exact ⟨SubTree.eq_of _ _ hn he.1, SubTree.eq_of _ _ hc he.2⟩
  · right
    exact ⟨he, h⟩

/-- Pushes onto stacks of the same heights give stacks of the same heights. -/
theorem pushLoop_heights (hs : Hasher) (i ci i1 ci1 : Nat) (c1 c2 : SubTree)
    (st1 st2 : List SubTree) (ps ps1 : List Bytes) (hc : c1.height = c2.height)
    (hh : st1.map SubTree.height = st2.map SubTree.height) :
    (pushLoop hs i ci c1 st1 ps).1.map SubTree.height
      = (pushLoop hs i1 ci1 c2 st2 ps1).1.map SubTree.height := by
  induction st1 generalizing c1 c2 st2 ps ps1 with
  | nil =>
    cases st2 with
    | nil => simp [pushLoop, hc]
    | cons n2 r2 => simp at hh
  | cons n1 r1 ih =>
    cases st2 with
    | nil => simp at hh
    | cons n2 r2 =>
      simp only [List.map_cons, List.cons.injEq] at hh
      unfold pushLoop
      by_cases he : c1.height = n1.height
      · have he2 : c2.height = n2.height := by omega
        simp only [he, he2, if_true]
        exact ih _ _ _ _ _ (by simp [joinSubTrees, hh.1]) hh.2
      · have he2 : ¬ (c2.height = n2.height) := by omega
        simp only [he, he2, if_false, List.map_cons, hc, hh.1, hh.2]

/-- Pushes with one resulting stack pushed the same subtree onto the same
stack, or met a collision. -/
theorem pushLoop_agree (hs : Hasher) (i ci i1 ci1 : Nat) (c1 c2 : SubTree)
    (st1 st2 : List SubTree) (ps ps1 : List Bytes) (hc : c1.height = c2.height)
    (hh : st1.map SubTree.height = st2.map SubTree.height)
    (h : (pushLoop hs i ci c1 st1 ps).1 = (pushLoop hs i1 ci1 c2 st2 ps1).1) :
    (c1 = c2 ∧ st1 = st2) ∨ NodeCollision hs (pushJoins hs c1 st1) (pushJoins hs c2 st2) := by
  induction st1 generalizing c1 c2 st2 ps ps1 with
  | nil =>
    cases st2 with
    | nil =>
      left
      simp only [pushLoop, List.cons.injEq, and_true] at h
      exact ⟨h, rfl⟩
    | cons n2 r2 => simp at hh
  | cons n1 r1 ih =>
    cases st2 with
    | nil => simp at hh
    | cons n2 r2 =>
      simp only [List.map_cons, List.cons.injEq] at hh
      unfold pushLoop at h
      unfold pushJoins
      by_cases he : c1.height = n1.height
      · have he2 : c2.height = n2.height := by omega
        simp only [he, he2, if_true] at h ⊢
        rcases ih _ _ _ _ _ (by simp [joinSubTrees, hh.1]) hh.2 h with ⟨hj, hr⟩ | hcol
        · rcases join_agree hs n1 c1 n2 c2 hh.1 hc (by rw [hj]) with ⟨e1, e2⟩ | ⟨hne, heq⟩
          · left
            exact ⟨e2, by rw [e1, hr]⟩
          · right
            exact ⟨_, List.mem_cons_self _ _, _, List.mem_cons_self _ _, hne, heq⟩
        · right
          exact NodeCollision.cons hs _ _ _ _ hcol
      · have he2 : ¬ (c2.height = n2.height) := by omega
        simp only [he, he2, if_false, List.cons.injEq] at h
        left
        exact ⟨h.1, by rw [h.2.1, h.2.2]⟩

/-- Stacks of the same heights with one root are the same, or the roots met
a collision. -/
theorem root_agree (hs : Hasher) (c1 c2 : SubTree) (st1 st2 : List SubTree)
    (hc : c1.height = c2.height) (hh : st1.map SubTree.height = st2.map SubTree.height)
    (h : (st1.foldl (fun c nxt => joinSubTrees hs nxt c) c1).sum
      = (st2.foldl (fun c nxt => joinSubTrees hs nxt c) c2).sum) :
    (c1 = c2 ∧ st1 = st2) ∨ NodeCollision hs (rootJoins hs c1 st1) (rootJoins hs c2 st2) := by
  induction st1 generalizing c1 c2 st2 with
  | nil =>
    cases st2 with
    | nil =>
      left
      exact ⟨SubTree.eq_of _ _ hc h, rfl⟩
    | cons n2 r2 => simp at hh
  | cons n1 r1 ih =>
    cases st2 with
    | nil => simp at hh
    | cons n2 r2 =>
      simp only [List.map_cons, List.cons.injEq] at hh
      simp only [List.foldl_cons] at h
      unfold rootJoins
      rcases ih _ _ _ (by simp [joinSubTrees, hh.1]) hh.2 h with ⟨hj, hr⟩ | hcol
      · rcases join_agree hs n1 c1 n2 c2 hh.1 hc (by rw [hj]) with ⟨e1, e2⟩ | ⟨hne, heq⟩
        · left
          exact ⟨e2, by rw [e1, hr]⟩
        · right
          exact ⟨_, List.mem_cons_self _ _, _, List.mem_cons_self _ _, hne, heq⟩
      · right
        exact NodeCollision.cons hs _ _ _ _ hcol

/-- Leaf lists of one length pushed onto stacks of the same heights, with one
root: the stacks and the lists are the same, or a collision was met. -/
theorem pushAll_agree (hs : Hasher) (st1 st2 : List SubTree) (l1 l2 : List Bytes)
    (hh : st1.map SubTree.height = st2.map SubTree.height) (hl : l1.length = l2.length)
    (h : rootOf hs (l1.foldl (stackAfter hs) st1) = rootOf hs (l2.foldl (stackAfter hs) st2)) :
    (st1 = st2 ∧ l1 = l2) ∨ LeafCollision hs l1 l2
      ∨ NodeCollision hs (nodeInputs hs st1 l1) (nodeInputs hs st2 l2) := by
  induction l1 generalizing st1 st2 l2 with
  | nil =>
    cases l2 with
    | cons b l2 => simp at hl
    | nil =>
      simp only [List.foldl_nil] at h
      cases st1 with
      | nil =>
        cases st2 with
        | nil => left; exact ⟨rfl, rfl⟩
        | cons c2 r2 => simp at hh
      | cons c1 r1 =>
        cases st2 with
        | nil => simp at hh
        | cons c2 r2 =>
          simp only [List.map_cons, List.cons.injEq] at hh
          simp only [rootOf, Option.some.injEq] at h
          rcases root_agree hs c1 c2 r1 r2 hh.1 hh.2 h with ⟨e1, e2⟩ | hcol
          · left; exact ⟨by rw [e1, e2], rfl⟩
          · right; right
            simpa only [nodeInputs] using hcol
  | cons a l1 ih =>
    cases l2 with
    | nil => simp at hl
    | cons b l2 =>
      simp only [List.length_cons, Nat.add_right_cancel_iff] at hl
      simp only [List.foldl_cons] at h
      have hh1 : (stackAfter hs st1 a).map SubTree.height
          = (stackAfter hs st2 b).map SubTree.height :=
        pushLoop_heights hs 0 0 0 0 { height := 0, sum := hs.leafSum a }
          { height := 0, sum := hs.leafSum b } st1 st2 [] [] rfl hh
      have e1 : nodeInputs hs st1 (a :: l1)
          = pushJoins hs { height := 0, sum := hs.leafSum a } st1
            ++ nodeInputs hs (stackAfter hs st1 a) l1 := by
        cases st1 <;> rfl
      have e2 : nodeInputs hs st2 (b :: l2)
          = pushJoins hs { height := 0, sum := hs.leafSum b } st2
            ++ nodeInputs hs (stackAfter hs st2 b) l2 := by
        cases st2 <;> rfl
      rw [e1, e2]
      rcases ih _ _ _ hh1 hl h with ⟨hst, hls⟩ | hleaf | hnode
      · rcases pushLoop_agree hs 0 0 0 0 { height := 0, sum := hs.leafSum a }
            { height := 0, sum := hs.leafSum b } st1 st2 [] [] rfl hh hst with ⟨hc, hs12⟩ | hcol
        · have hsum : hs.leafSum a = hs.leafSum b := congrArg SubTree.sum hc
          by_cases hab : a = b
          · left; exact ⟨hs12, by rw [hab, hls]⟩
          · right; left
            exact ⟨a, List.mem_cons_self _ _, b, List.mem_cons_self _ _, hab, hsum⟩
        · right; right
          exact NodeCollision.left hs _ _ _ _ hcol
      · right; left
        obtain ⟨x, hx, y, hy, hne, he⟩ := hleaf
        exact ⟨x, List.mem_cons_of_mem _ hx, y, List.mem_cons_of_mem _ hy, hne, he⟩
      · right; right
        exact NodeCollision.right hs _ _ _ _ hnode

end merkletree

/-! ## crypto/merkle.go: order of the leaves -/

/-- The stack of a tree after pushes, by `stackAfter`. -/
theorem pushAll_stack (hs : Hasher) (t : merkletree.Tree) (leaves : List Bytes) :
    (leaves.foldl (merkletree.Tree.Push hs) t).head
      = leaves.foldl (merkletree.stackAfter hs) t.head := by
  induction leaves generalizing t with
  | nil => rfl
  | cons l rest ih =>
    simp only [List.foldl_cons]
    rw [ih]
    congr 1
    exact merkletree.pushLoop_stack _ _ _ _ _ _ _ _ _

/-- The root of a tree is the root of its stack. -/
theorem Root_eq_rootOf (hs : Hasher) (t : merkletree.Tree) :
    t.Root hs = merkletree.rootOf hs t.head := by
  unfold merkletree.Tree.Root
  cases t.head <;> rfl

/-- The root of a stack of sized sums is sized. -/
theorem rootOf_sized (hs : Hasher) (hw : hs.WellSized) (st : List merkletree.SubTree)
    (hst : merkletree.SizedStack hs st) (r : Bytes) (h : merkletree.rootOf hs st = some r) :
    r.length = hs.size := by
  cases st with
  | nil => simp [merkletree.rootOf] at h
  | cons c rest =>
    simp only [merkletree.rootOf, Option.some.injEq] at h
    rw [← h, merkletree.fold_join_sum]
    exact merkletree.fold_sized hs hw _ _ (hst c (List.mem_cons_self _ _))

/-- The value of `MerkleRoot` on a non-empty list is the root of the stack of
its leaves. -/
theorem MerkleRoot_eq_rootOf (hs : Hasher) (hw : hs.WellSized) (leaves : List Bytes)
    (hne : leaves ≠ []) :
    merkletree.rootOf hs (leaves.foldl (merkletree.stackAfter hs) []) = some (MerkleRoot hs leaves) := by
  have hinv := merkletree.Inv.pushAll hs hw 0 0 _ leaves (merkletree.Inv.new hs 0)
  have hhead := pushAll_stack hs (merkletree.New.SetIndex 0) leaves
  have hsz := hinv.sizedStack
  have hcount := hinv.count
  rw [hhead] at hsz hcount
  have hroot : (leaves.foldl (merkletree.Tree.Push hs) merkletree.New).Root hs
      = merkletree.rootOf hs (leaves.foldl (merkletree.stackAfter hs) []) := by
    rw [Root_eq_rootOf, pushAll_stack]
    rfl
  unfold MerkleRoot MerkleTree.Root
  rw [hroot]
  have hl : 0 < leaves.length := List.length_pos.mpr hne
  rcases hr : merkletree.rootOf hs (leaves.foldl (merkletree.stackAfter hs) []) with _ | r
  · exfalso
    have hst : leaves.foldl (merkletree.stackAfter hs)
        (merkletree.New.SetIndex 0).head = [] := by
      cases hx : leaves.foldl (merkletree.stackAfter hs) (merkletree.New.SetIndex 0).head with
      | nil => rfl
      | cons c rest =>
        have : leaves.foldl (merkletree.stackAfter hs) [] = c :: rest := hx
        rw [this] at hr
        simp [merkletree.rootOf] at hr
    rw [hst] at hcount
    simp only [merkletree.leafCount] at hcount
    omega
  · simp only [Option.getD_some]
    rw [copyHash_sized _ _ (rootOf_sized hs hw _ hsz r hr)]

/-- C17 (counterexample): a list of two equal leaves under the swap of its
two positions, a permutation other than the identity, is the same list and
has the same root. -/
theorem equal_leaves_swapped_same_root :
    Equiv.swap (0 : Fin 2) 1 ≠ 1
      ∧ MerkleRoot tagHasher
          (List.ofFn (fun i : Fin 2 => (fun _ : Fin 2 => ([1] : Bytes)) (Equiv.swap 0 1 i)))
        = MerkleRoot tagHasher (List.ofFn (fun _ : Fin 2 => ([1] : Bytes))) := by
  refine ⟨by decide, rfl⟩

/-- C17 (amended): `MerkleRoot` is a function of the leaf list, and for a
hash whose sums are `HashSize` bytes long it is order-sensitive up to hash
collisions: when a permutation of the leaves has the same root, either it is
the same list or the two computations meet a hash collision (two different
leaves with one leaf hash, or two different pairs of sums with one node
hash). -/
theorem MerkleRoot_order_sensitive (hs : Hasher) (hw : hs.WellSized) (l1 l2 : List Bytes) :
    (l1 = l2 → MerkleRoot hs l1 = MerkleRoot hs l2)
      ∧ (l1.Perm l2 → MerkleRoot hs l1 = MerkleRoot hs l2 → l1 = l2 ∨ Collides hs l1 l2) := by
  refine ⟨fun h => by rw [h], ?_⟩
  intro hperm hroot
  have hlen := hperm.length_eq
  by_cases h1 : l1 = []
  · subst h1
    left
    exact (List.length_eq_zero.mp hlen.symm).symm
  · have h2 : l2 ≠ [] := by
      intro h
      subst h
      exact h1 (List.length_eq_zero.mp hlen)
    have hr : merkletree.rootOf hs (l1.foldl (merkletree.stackAfter hs) [])
        = merkletree.rootOf hs (l2.foldl (merkletree.stackAfter hs) []) := by
      rw [MerkleRoot_eq_rootOf hs hw l1 h1, MerkleRoot_eq_rootOf hs hw l2 h2, hroot]
    rcases merkletree.pushAll_agree hs [] [] l1 l2 rfl hlen hr with ⟨-, h⟩ | h | h
    · left; exact h
    · right; left; exact h
    · right; right; exact h

/-- Witness of C17 (amended): two leaves with one leaf hash under the
two-byte hasher, in both orders. -/
theorem MerkleRoot_order_sensitive_witness :
    tagHasher.WellSized
      ∧ ([[1, 2], [2, 1]] : List Bytes).Perm [[2, 1], [1, 2]]
      ∧ MerkleRoot tagHasher [[1, 2], [2, 1]] = MerkleRoot tagHasher [[2, 1], [1, 2]]
      ∧ (([[1, 2], [2, 1]] : List Bytes) = [[2, 1], [1, 2]]
        ∨ Collides tagHasher [[1, 2], [2, 1]] [[2, 1], [1, 2]]) :=
  ⟨⟨fun _ => rfl, fun _ _ => rfl⟩, List.Perm.swap _ _ _, rfl,
    (MerkleRoot_order_sensitive tagHasher ⟨fun _ => rfl, fun _ _ => rfl⟩
      [[1, 2], [2, 1]] [[2, 1], [1, 2]]).2 (List.Perm.swap _ _ _) rfl⟩

end Sia
